import Mathlib

/-!
Shallow embedding of the TPC-H Query 5 engine in `src/query5.cpp`.

Modelling conventions:
* Table rows are structures holding exactly the string fields the engine
  reads (all `.tbl` fields are strings in the source; numeric fields are
  parsed with `std::stod` only at the point of use).
* `std::map<std::string, T>` is modelled by `AList T`, an association list
  kept sorted by key; `upd` is `m[k] = v`, `afind` is `m.find(k)`, and
  `addTo` is `m[k] += v` (with the zero-initialising `operator[]`).
* C++ `double` arithmetic on prices is modelled over exact rationals `ℚ`.
* `std::stod` (which throws on a malformed number, terminating the run) is
  modelled by the `Option`-valued `parseNum`; the engine propagates the
  failure as `Except.error ()`.
* Threads are sequentialised: each worker touches only its own chunk and
  its own private accumulator in the source, so running the workers in
  index order over their index ranges is observationally faithful.
-/

namespace TPCH

/-- One row of `region.tbl`, with the fields `executeQuery5` reads. -/
structure Region where
  r_regionkey : String
  r_name : String
  deriving DecidableEq, Repr

/-- One row of `nation.tbl`, with the fields `executeQuery5` reads. -/
structure Nation where
  n_nationkey : String
  n_name : String
  n_regionkey : String
  deriving DecidableEq, Repr

/-- One row of `customer.tbl`, with the fields `executeQuery5` reads. -/
structure Customer where
  c_custkey : String
  c_nationkey : String
  deriving DecidableEq, Repr

/-- One row of `supplier.tbl`, with the fields `executeQuery5` reads. -/
structure Supplier where
  s_suppkey : String
  s_nationkey : String
  deriving DecidableEq, Repr

/-- One row of `orders.tbl`, with the fields `executeQuery5` reads. -/
structure Order where
  o_orderkey : String
  o_custkey : String
  o_orderdate : String
  deriving DecidableEq, Repr

/-- One row of `lineitem.tbl`, with the fields `executeQuery5` reads. -/
structure LineItem where
  l_orderkey : String
  l_suppkey : String
  l_extendedprice : String
  l_discount : String
  deriving DecidableEq, Repr

/-- The six row collections `executeQuery5` consumes. -/
structure QueryInput where
  customer_data : List Customer
  orders_data : List Order
  lineitem_data : List LineItem
  supplier_data : List Supplier
  nation_data : List Nation
  region_data : List Region
  deriving DecidableEq, Repr

/-- Model of `std::map<std::string, α>`: an association list sorted by key. -/
abbrev AList (α : Type) : Type := List (String × α)

/-- `m.find(key)`: the value stored at `key`, if present. -/
def afind {α : Type} : AList α → String → Option α
  | [], _ => none
  | (k, v) :: rest, key => if k = key then some v else afind rest key

/-- `m[key] = v`: sorted insert-or-overwrite, as `std::map::operator[]`
followed by assignment.  Keys are ordered as `std::string::operator<`
orders them: lexicographically on the character sequence (written here on
`String.data` so that every comparison reduces inside the kernel). -/
def upd {α : Type} : AList α → String → α → AList α
  | [], key, v => [(key, v)]
  | (k, w) :: rest, key, v =>
    if key.data < k.data then (key, v) :: (k, w) :: rest
    else if key = k then (key, v) :: rest
    else (k, w) :: upd rest key v

/-- `m[key] += v` on a `std::map<std::string, double>`: `operator[]`
value-initialises an absent entry to `0` before the `+=`. -/
def addTo (m : AList ℚ) (key : String) (v : ℚ) : AList ℚ :=
  upd m key ((afind m key).getD 0 + v)

/-- Consume a maximal run of decimal digits, returning the accumulated
value, the number of digits consumed, and the remaining characters. -/
def readDigits : List Char → Nat → Nat → Nat × Nat × List Char
  | [], acc, cnt => (acc, cnt, [])
  | c :: cs, acc, cnt =>
    if '0' ≤ c ∧ c ≤ '9' then
      readDigits cs (acc * 10 + (c.toNat - '0'.toNat)) (cnt + 1)
    else (acc, cnt, c :: cs)

/-- Model of `std::stod` restricted to the plain decimal notation of the
TPC-H numeric fields: optional leading spaces, an optional sign, an integer
part, and an optional fractional part; at least one digit must be present,
anything after the parsed prefix is ignored, and `none` models the
`std::invalid_argument` exception thrown when no conversion is possible. -/
def parseNum (s : String) : Option ℚ :=
  let cs := s.toList.dropWhile (fun c => c = ' ' ∨ c = '\t')
  let signed : Bool × List Char :=
    match cs with
    | '-' :: rest => (true, rest)
    | '+' :: rest => (false, rest)
    | _ => (false, cs)
  let ipart := readDigits signed.2 0 0
  match ipart.2.2 with
  | '.' :: cs3 =>
    let fpart := readDigits cs3 0 0
    if ipart.2.1 + fpart.2.1 = 0 then none
    else
      let mag : ℚ := (ipart.1 : ℚ) + (fpart.1 : ℚ) / ((10 : ℚ) ^ fpart.2.1)
      some (if signed.1 then -mag else mag)
  | _ =>
    if ipart.2.1 = 0 then none
    else some (if signed.1 then -(ipart.1 : ℚ) else (ipart.1 : ℚ))

/-- Step 1 of `executeQuery5`: collect the keys of the regions whose
`r_name` equals the target region name (push-back loop over `region_data`). -/
def validRegionKeys (region_data : List Region) (r_name : String) : List String :=
  region_data.foldl
    (fun acc r => if r.r_name = r_name then acc ++ [r.r_regionkey] else acc) []

/-- Step 2 of `executeQuery5`: map nation key → nation name, restricted to
nations whose region key occurs in `valid_region_keys` (nested loop; the
inner loop writes once per matching region key). -/
def nationKeyToName (nation_data : List Nation)
    (valid_region_keys : List String) : AList String :=
  nation_data.foldl
    (fun m n =>
      valid_region_keys.foldl
        (fun m r_key =>
          if n.n_regionkey = r_key then upd m n.n_nationkey n.n_name else m)
        m)
    []

/-- Step 3 of `executeQuery5`: map customer key → nation key, restricted to
customers whose nation key is a key of `nation_key_to_name`. -/
def validCustomers (customer_data : List Customer)
    (nation_key_to_name : AList String) : AList String :=
  customer_data.foldl
    (fun m c =>
      if (afind nation_key_to_name c.c_nationkey).isSome then
        upd m c.c_custkey c.c_nationkey
      else m)
    []

/-- Step 4 of `executeQuery5`: map supplier key → nation key, restricted to
suppliers whose nation key is a key of `nation_key_to_name`. -/
def validSuppliers (supplier_data : List Supplier)
    (nation_key_to_name : AList String) : AList String :=
  supplier_data.foldl
    (fun m s =>
      if (afind nation_key_to_name s.s_nationkey).isSome then
        upd m s.s_suppkey s.s_nationkey
      else m)
    []

/-- Step 5 of `executeQuery5`: map order key → customer key, restricted to
orders whose date lies in `[start_date, end_date)` (lexicographic string
comparison, as `std::string::operator<`) and whose customer key is a key of
`valid_customers`. -/
def validOrders (orders_data : List Order) (start_date end_date : String)
    (valid_customers : AList String) : AList String :=
  orders_data.foldl
    (fun m o =>
      if start_date.data ≤ o.o_orderdate.data ∧
          o.o_orderdate.data < end_date.data then
        if (afind valid_customers o.o_custkey).isSome then
          upd m o.o_orderkey o.o_custkey
        else m
      else m)
    []

/-- The per-row body of the worker lambda in `executeQuery5`: skip the row
unless its order key and supplier key are valid and the customer's and the
supplier's nation keys coincide; then parse the price fields (a parse
failure aborts the run) and accumulate `price * (1 - discount)` under the
nation's name.  The source reads `valid_customers[c_key]` and
`nation_key_to_name[s_nation]` with the default-inserting `operator[]`;
this is modelled as a read with default `""`, which is observationally
faithful because both keys are always present (proved below, claim C8). -/
def processItem (vo vs vc nk2n : AList String) (acc : AList ℚ)
    (item : LineItem) : Except Unit (AList ℚ) :=
  match afind vo item.l_orderkey with
  | none => .ok acc
  | some c_key =>
    match afind vs item.l_suppkey with
    | none => .ok acc
    | some s_nation =>
      let c_nation := (afind vc c_key).getD ""
      if c_nation = s_nation then
        match parseNum item.l_extendedprice with
        | none => .error ()
        | some price =>
          match parseNum item.l_discount with
          | none => .error ()
          | some discount =>
            let revenue := price * (1 - discount)
            let n_name := (afind nk2n s_nation).getD ""
            .ok (addTo acc n_name revenue)
      else .ok acc

/-- The index range `[start, end)` of worker `i`: `chunk_size = M / N`,
`start = i * chunk_size`, and the last worker's range ends at `M`. -/
def chunkRange (total_items num_threads i : Nat) : Nat × Nat :=
  let chunk_size := total_items / num_threads
  (i * chunk_size,
   if i = num_threads - 1 then total_items else (i + 1) * chunk_size)

/-- The slice of the line-item collection that worker `i` scans. -/
def chunkSeg (l : List LineItem) (num_threads i : Nat) : List LineItem :=
  let r := chunkRange l.length num_threads i
  (l.drop r.1).take (r.2 - r.1)

/-- One worker: fold the per-row body over the worker's slice, starting
from its empty private accumulator (error short-circuits, as the uncaught
`std::stod` exception does). -/
def runWorker (vo vs vc nk2n : AList String) (items : List LineItem) :
    Except Unit (AList ℚ) :=
  items.foldlM (processItem vo vs vc nk2n) []

/-- The merge loop of `executeQuery5`: `results[pair.first] += pair.second`
for every pair of one worker's private map. -/
def mergeInto (results part : AList ℚ) : AList ℚ :=
  part.foldl (fun r p => addTo r p.1 p.2) results

/-- `executeQuery5`: build the five derived mappings, run the workers over
their chunks of the line-item collection, and merge the private maps in
worker-index order into the (initially empty) result map. -/
def executeQuery5 (r_name start_date end_date : String) (num_threads : Nat)
    (inp : QueryInput) : Except Unit (AList ℚ) := do
  let vrk := validRegionKeys inp.region_data r_name
  let nk2n := nationKeyToName inp.nation_data vrk
  let vc := validCustomers inp.customer_data nk2n
  let vs := validSuppliers inp.supplier_data nk2n
  let vo := validOrders inp.orders_data start_date end_date vc
  let parts ← (List.range num_threads).mapM
    (fun i => runWorker vo vs vc nk2n (chunkSeg inp.lineitem_data num_threads i))
  return parts.foldl mergeInto []

/-- The comparison the Result Ranker sorts by: revenue descending (the
source comparator is `a.second > b.second`; a sort that places `a` before
`b` whenever `¬ (b.second > a.second)` fails is exactly a sort that is
non-increasing in the second component). -/
def revGE (a b : String × ℚ) : Prop := b.2 ≤ a.2

instance : DecidableRel revGE := fun a b => inferInstanceAs (Decidable (b.2 ≤ a.2))

instance : IsTotal (String × ℚ) revGE := ⟨fun a b => le_total b.2 a.2⟩

instance : IsTrans (String × ℚ) revGE := ⟨fun _ _ _ h1 h2 => le_trans h2 h1⟩

/-- The sorting step of `outputResults`: copy the result map into a
sequence and sort it by revenue descending.  `std::sort` with a strict
comparator yields some non-increasing permutation with arbitrary tie
order; it is modelled here by an insertion sort for `revGE`, one such
permutation. -/
def sortedResults (results : AList ℚ) : List (String × ℚ) :=
  List.insertionSort revGE results

/-! Analysis definitions: decision procedures and spec-side predicates used
to state and prove the theorems below.  None of them are part of the
engine; the engine is fully described by the definitions above. -/

/-- `(afind m k).getD 0`: the revenue stored under `k`, zero when absent. -/
def afindD (m : AList ℚ) (key : String) : ℚ := (afind m key).getD 0

/-- The `nation_key_to_name` mapping of a run of `executeQuery5`. -/
def nk2nOf (r_name : String) (inp : QueryInput) : AList String :=
  nationKeyToName inp.nation_data (validRegionKeys inp.region_data r_name)

/-- The `valid_customers` mapping of a run of `executeQuery5`. -/
def vcOf (r_name : String) (inp : QueryInput) : AList String :=
  validCustomers inp.customer_data (nk2nOf r_name inp)

/-- The `valid_suppliers` mapping of a run of `executeQuery5`. -/
def vsOf (r_name : String) (inp : QueryInput) : AList String :=
  validSuppliers inp.supplier_data (nk2nOf r_name inp)

/-- The `valid_orders` mapping of a run of `executeQuery5`. -/
def voOf (r_name start_date end_date : String) (inp : QueryInput) :
    AList String :=
  validOrders inp.orders_data start_date end_date (vcOf r_name inp)

/-- A well-formed `std::map` image: keys strictly increasing. -/
def SortedA {α : Type} (m : AList α) : Prop :=
  m.Pairwise (fun p q => p.1.data < q.1.data)

/-- One step of the common Dimension Filter loop shape
`for x in rows: if P x then m[key x] = val x`. -/
def buildStep {α β : Type} (P : β → Bool) (key : β → String) (val : β → α)
    (m : AList α) (x : β) : AList α :=
  if P x then upd m (key x) (val x) else m

/-- The common Dimension Filter loop, folded from an arbitrary initial map. -/
def buildFrom {α β : Type} (P : β → Bool) (key : β → String) (val : β → α)
    (m : AList α) (rows : List β) : AList α :=
  rows.foldl (buildStep P key val) m

/-- The revenue contribution of one line item,
`extended_price * (1 - discount)` (zero default for an unparseable field;
only used where parsing is known to succeed or the value is irrelevant). -/
def itemRevenue (item : LineItem) : ℚ :=
  (parseNum item.l_extendedprice).getD 0 * (1 - (parseNum item.l_discount).getD 0)

/-- Whether a line item passes the three join filters of the worker body
(valid order, valid supplier, customer's and supplier's nation equal) —
exactly the guards that stand before the `std::stod` calls. -/
def passesFilters (vo vs vc : AList String) (item : LineItem) : Bool :=
  match afind vo item.l_orderkey with
  | none => false
  | some c_key =>
    match afind vs item.l_suppkey with
    | none => false
    | some s_nation => decide ((afind vc c_key).getD "" = s_nation)

/-- Whether one of the two numeric fields of a line item fails to parse. -/
def parseFails (item : LineItem) : Bool :=
  (parseNum item.l_extendedprice).isNone || (parseNum item.l_discount).isNone

/-- The nation name and revenue a line item contributes, if it passes the
join filters (parse failures are defaulted here; `processItem` agrees with
this on every row on which it does not abort). -/
def lineContrib (vo vs vc nk2n : AList String) (item : LineItem) :
    Option (String × ℚ) :=
  match afind vo item.l_orderkey with
  | none => none
  | some c_key =>
    match afind vs item.l_suppkey with
    | none => none
    | some s_nation =>
      if (afind vc c_key).getD "" = s_nation then
        some ((afind nk2n s_nation).getD "", itemRevenue item)
      else none

/-- The abort-free worker step: accumulate the contribution, if any. -/
def stepT (vo vs vc nk2n : AList String) (acc : AList ℚ) (item : LineItem) :
    AList ℚ :=
  match lineContrib vo vs vc nk2n item with
  | none => acc
  | some p => addTo acc p.1 p.2

/-- Whether a line item contributes to nation name `nm`. -/
def contribTo (vo vs vc nk2n : AList String) (nm : String)
    (item : LineItem) : Bool :=
  match lineContrib vo vs vc nk2n item with
  | none => false
  | some p => decide (p.1 = nm)

/-- Spec-side qualification predicate for claim C1, written from the
claim's words: the line item's order exists and lies in the date window,
the order's customer and the line item's supplier exist and share the same
nation key, and that nation exists, is named `nm`, and lies in a region
named `r_name`. -/
def qualifies (r_name start_date end_date : String) (inp : QueryInput)
    (nm : String) (li : LineItem) : Bool :=
  inp.orders_data.any fun o =>
    decide (o.o_orderkey = li.l_orderkey) &&
    decide (start_date.data ≤ o.o_orderdate.data) &&
    decide (o.o_orderdate.data < end_date.data) &&
    (inp.customer_data.any fun c =>
      decide (c.c_custkey = o.o_custkey) &&
      (inp.supplier_data.any fun s =>
        decide (s.s_suppkey = li.l_suppkey) &&
        decide (c.c_nationkey = s.s_nationkey) &&
        (inp.nation_data.any fun n =>
          decide (n.n_nationkey = s.s_nationkey) && decide (n.n_name = nm) &&
          (inp.region_data.any fun r =>
            decide (r.r_regionkey = n.n_regionkey) &&
            decide (r.r_name = r_name)))))

/-- Uniqueness of the key columns of the four keyed tables (guaranteed by
TPC-H data; several per-key claims presuppose it). -/
def NodupKeys (inp : QueryInput) : Prop :=
  (inp.nation_data.map Nation.n_nationkey).Nodup ∧
  (inp.customer_data.map Customer.c_custkey).Nodup ∧
  (inp.supplier_data.map Supplier.s_suppkey).Nodup ∧
  (inp.orders_data.map Order.o_orderkey).Nodup

/-! State-passing view for the frame claim C9.  In the source the six row
collections are passed to `executeQuery5` by `const` reference and the
result map by mutable reference; `outputResults` takes the result map by
`const` reference and sorts a copy (`sorted_results`).  The translation
threads one explicit program state through both calls; the mutable
reference is the `results` field. -/

/-- The variables of `main` that `executeQuery5`/`outputResults` receive by
reference: the six collections and the result map. -/
structure ProgState where
  customer_data : List Customer
  orders_data : List Order
  lineitem_data : List LineItem
  supplier_data : List Supplier
  nation_data : List Nation
  region_data : List Region
  results : AList ℚ
  deriving DecidableEq, Repr

/-- The read-only inputs of a state, as one `QueryInput`. -/
def ProgState.input (st : ProgState) : QueryInput :=
  ⟨st.customer_data, st.orders_data, st.lineitem_data,
   st.supplier_data, st.nation_data, st.region_data⟩

/-- `executeQuery5` as a state transformer: it writes only through the
`results` reference (the source contains no assignment to any of the six
collections, which are `const`). -/
def executeQuery5St (r_name start_date end_date : String) (num_threads : Nat)
    (st : ProgState) : Except Unit ProgState :=
  (executeQuery5 r_name start_date end_date num_threads st.input).map
    fun res => { st with results := res }

/-- `outputResults` as a state transformer returning the ordered sequence
it writes: the sort operates on the copy `sorted_results`, and the source
contains no assignment through the `const` reference to the map, so the
state passes through unchanged. -/
def outputResultsSt (st : ProgState) : List (String × ℚ) × ProgState :=
  (sortedResults st.results, st)

/-! Command-line parsing (`parseArgs`) for claim C10. -/

/-- The six variables of `main` that `parseArgs` fills through references. -/
structure ArgConfig where
  r_name : String
  start_date : String
  end_date : String
  num_threads : Int
  table_path : String
  result_path : String
  deriving DecidableEq, Repr

/-- Model of `std::stoi` restricted to plain decimal integers: optional
leading spaces, optional sign, a non-empty digit prefix; `none` models the
exception thrown when no conversion is possible. -/
def myStoi (s : String) : Option Int :=
  let cs := s.toList.dropWhile (fun c => c = ' ' ∨ c = '\t')
  let signed : Bool × List Char :=
    match cs with
    | '-' :: rest => (true, rest)
    | '+' :: rest => (false, rest)
    | _ => (false, cs)
  let d := readDigits signed.2 0 0
  if d.2.1 = 0 then none
  else some (if signed.1 then -(d.1 : Int) else (d.1 : Int))

/-- The scanning loop of `parseArgs` over `argv[1..]`: a recognised flag
consumes the following argument as its value (only when a following
argument exists); anything else is stepped over.  `none` models the
uncaught `std::stoi` exception on a malformed `--threads` value. -/
def parseArgsLoop : List String → ArgConfig → Option ArgConfig
  | [], cfg => some cfg
  | [_], cfg => some cfg
  | a :: v :: rest, cfg =>
    if a = "--r_name" then parseArgsLoop rest { cfg with r_name := v }
    else if a = "--start_date" then parseArgsLoop rest { cfg with start_date := v }
    else if a = "--end_date" then parseArgsLoop rest { cfg with end_date := v }
    else if a = "--threads" then
      match myStoi v with
      | none => none
      | some t => parseArgsLoop rest { cfg with num_threads := t }
    else if a = "--table_path" then parseArgsLoop rest { cfg with table_path := v }
    else if a = "--result_path" then parseArgsLoop rest { cfg with result_path := v }
    else parseArgsLoop (v :: rest) cfg

/-- The final validation of `parseArgs`: every string present (non-empty,
as `std::string::empty()` tests) and a positive thread count. -/
def argsOk (c : ArgConfig) : Bool :=
  !(decide (c.r_name = "") || decide (c.start_date = "") ||
    decide (c.end_date = "") || decide (c.table_path = "") ||
    decide (c.result_path = "") || decide (c.num_threads ≤ 0))

/-- `parseArgs`: scan the arguments, then validate; returns the boolean
result together with the final values of the by-reference variables. -/
def parseArgs (args : List String) (init : ArgConfig) :
    Option (Bool × ArgConfig) :=
  (parseArgsLoop args init).map fun c => (argsOk c, c)

/-! Small concrete datasets used to exercise the theorems below. -/

/-- A one-nation dataset: one customer, one supplier, one in-window order
and two clean line items, all in nation `JAPAN` of region `ASIA`. -/
def sampleInput : QueryInput :=
  { customer_data := [⟨"c1", "10"⟩]
    orders_data := [⟨"o1", "c1", "1994-06-01"⟩]
    lineitem_data := [⟨"o1", "s1", "100.0", "0.10"⟩, ⟨"o1", "s1", "20.0", "0.0"⟩]
    supplier_data := [⟨"s1", "10"⟩]
    nation_data := [⟨"10", "JAPAN", "1"⟩]
    region_data := [⟨"1", "ASIA"⟩] }

/-- `sampleInput` with a malformed discount on a line item that passes all
join filters. -/
def badInput : QueryInput :=
  { sampleInput with lineitem_data := [⟨"o1", "s1", "100.0", "abc"⟩] }

/-- `sampleInput` with a malformed discount on a line item whose order key
matches no valid order, so the join filters skip it before parsing. -/
def skipInput : QueryInput :=
  { sampleInput with lineitem_data := [⟨"o99", "s1", "100.0", "abc"⟩] }

/-- A program state carrying `sampleInput` and an empty result map. -/
def sampleState : ProgState :=
  { customer_data := sampleInput.customer_data
    orders_data := sampleInput.orders_data
    lineitem_data := sampleInput.lineitem_data
    supplier_data := sampleInput.supplier_data
    nation_data := sampleInput.nation_data
    region_data := sampleInput.region_data
    results := [] }

/-- Modelled from the spec: the program's entry point (its translation unit
is not under `src/`).  Per §7, a configuration error is "fatal, detected
before engine starts; no rows are processed": when `parseArgs` does not
succeed with `true`, the engine never runs, so zero line-item rows are
scanned; otherwise the engine scans every line-item row. -/
def mainRowsProcessed (args : List String) (init : ArgConfig)
    (inp : QueryInput) : Nat :=
  match parseArgs args init with
  | some (true, _) => inp.lineitem_data.length
  | _ => 0

/-! ### Association-list map lemmas -/

theorem afind_cons {α : Type} (k : String) (v : α) (rest : AList α)
    (key : String) :
    afind ((k, v) :: rest) key = if k = key then some v else afind rest key :=
  rfl

theorem data_eq_iff {a b : String} : a.data = b.data ↔ a = b := by
  constructor
  · intro h
    exact congrArg String.mk h
  · intro h
    rw [h]

theorem afind_upd {α : Type} (m : AList α) (key : String) (v : α)
    (key' : String) :
    afind (upd m key v) key' = if key = key' then some v else afind m key' := by
  induction m with
  | nil => simp [upd, afind]
  | cons p rest ih =>
    obtain ⟨k, w⟩ := p
    by_cases h1 : key.data < k.data
    · simp [upd, h1, afind_cons]
    · by_cases h2 : key = k
      · subst h2
        by_cases h3 : key = key' <;> simp [upd, h1, afind_cons, h3]
      · by_cases h3 : k = key'
        · subst h3
          have : key ≠ k := h2
          simp [upd, h1, h2, afind_cons, this]
        · simp [upd, h1, h2, afind_cons, h3, ih]

theorem afind_mem {α : Type} {m : AList α} {k : String} {v : α}
    (h : afind m k = some v) : (k, v) ∈ m := by
  induction m with
  | nil => simp [afind] at h
  | cons p rest ih =>
    obtain ⟨k', w⟩ := p
    rw [afind_cons] at h
    by_cases h1 : k' = k
    · subst h1
      simp at h
      simp [h]
    · simp [h1] at h
      exact List.mem_cons_of_mem _ (ih h)

theorem afind_isSome_iff {α : Type} (m : AList α) (k : String) :
    (afind m k).isSome = true ↔ ∃ v, (k, v) ∈ m := by
  induction m with
  | nil => simp [afind]
  | cons p rest ih =>
    obtain ⟨k', w⟩ := p
    rw [afind_cons]
    by_cases h1 : k' = k
    · subst h1
      simp
    · simp only [h1, if_false, ih]
      constructor
      · rintro ⟨v, hv⟩
        exact ⟨v, List.mem_cons_of_mem _ hv⟩
      · rintro ⟨v, hv⟩
        rcases List.mem_cons.mp hv with h | h
        · cases h
          exact absurd rfl h1
        · exact ⟨v, h⟩

theorem afind_eq_none_of_not_key {α : Type} {m : AList α} {k : String}
    (h : ∀ p ∈ m, p.1 ≠ k) : afind m k = none := by
  induction m with
  | nil => rfl
  | cons p rest ih =>
    obtain ⟨k', w⟩ := p
    rw [afind_cons]
    have hk : k' ≠ k := h (k', w) (List.mem_cons_self _ _)
    simp only [hk, if_false]
    exact ih fun p hp => h p (List.mem_cons_of_mem _ hp)

theorem mem_upd {α : Type} {m : AList α} {key : String} {v : α}
    {p : String × α} (h : p ∈ upd m key v) : p ∈ m ∨ p = (key, v) := by
  induction m with
  | nil =>
    simp [upd] at h
    right
    simp [h]
  | cons q rest ih =>
    obtain ⟨k, w⟩ := q
    by_cases h1 : key.data < k.data
    · simp only [upd, if_pos h1] at h
      rcases List.mem_cons.mp h with h | h
      · right; exact h
      · left; exact h
    · by_cases h2 : key = k
      · subst h2
        simp only [upd, if_neg h1, if_pos rfl] at h
        rcases List.mem_cons.mp h with h | h
        · right; exact h
        · left; exact List.mem_cons_of_mem _ h
      · simp only [upd, if_neg h1, if_neg h2] at h
        rcases List.mem_cons.mp h with h | h
        · left; simp [h]
        · rcases ih h with h | h
          · left; exact List.mem_cons_of_mem _ h
          · right; exact h

theorem upd_idem {α : Type} (m : AList α) (k : String) (v : α) :
    upd (upd m k v) k v = upd m k v := by
  induction m with
  | nil => simp [upd]
  | cons p rest ih =>
    obtain ⟨k', w⟩ := p
    by_cases h1 : k.data < k'.data
    · simp [upd, h1, lt_irrefl]
    · by_cases h2 : k = k'
      · subst h2
        simp [upd, h1, lt_irrefl]
      · simp [upd, h1, h2, ih]

theorem afind_addTo (m : AList ℚ) (key : String) (v : ℚ) (key' : String) :
    afind (addTo m key v) key' =
      if key = key' then some ((afind m key).getD 0 + v) else afind m key' := by
  simp [addTo, afind_upd]

theorem afindD_addTo (m : AList ℚ) (key : String) (v : ℚ) (key' : String) :
    afindD (addTo m key v) key' =
      afindD m key' + if key = key' then v else 0 := by
  unfold afindD
  rw [afind_addTo]
  by_cases h : key = key'
  · subst h
    simp
  · simp [h]

theorem isSome_afind_addTo (m : AList ℚ) (key : String) (v : ℚ)
    (key' : String) :
    (afind (addTo m key v) key').isSome = true ↔
      key = key' ∨ (afind m key').isSome = true := by
  rw [afind_addTo]
  by_cases h : key = key' <;> simp [h]

/-! ### Sortedness of the maps built by `upd` -/

theorem SortedA.nil {α : Type} : SortedA ([] : AList α) := List.Pairwise.nil

theorem SortedA.upd {α : Type} {m : AList α} (h : SortedA m) (key : String)
    (v : α) : SortedA (upd m key v) := by
  induction m with
  | nil => exact List.pairwise_singleton _ _
  | cons p rest ih =>
    obtain ⟨k, w⟩ := p
    rcases List.pairwise_cons.mp h with ⟨hk, hrest⟩
    by_cases h1 : key.data < k.data
    · rw [show TPCH.upd ((k, w) :: rest) key v = (key, v) :: (k, w) :: rest from
        by simp [TPCH.upd, h1]]
      refine List.pairwise_cons.mpr ⟨?_, h⟩
      intro q hq
      rcases List.mem_cons.mp hq with rfl | hq
      · exact h1
      · exact lt_trans h1 (hk q hq)
    · by_cases h2 : key = k
      · subst h2
        rw [show TPCH.upd ((key, w) :: rest) key v = (key, v) :: rest from
          by simp [TPCH.upd, lt_irrefl]]
        refine List.pairwise_cons.mpr ⟨?_, hrest⟩
        intro q hq
        exact hk q hq
      · have h3 : k.data < key.data :=
          lt_of_le_of_ne (le_of_not_lt h1) fun e => h2 (data_eq_iff.mp e.symm)
        rw [show TPCH.upd ((k, w) :: rest) key v = (k, w) :: TPCH.upd rest key v
          from by simp [TPCH.upd, h1, h2]]
        refine List.pairwise_cons.mpr ⟨?_, ih hrest⟩
        intro q hq
        rcases mem_upd hq with hq | rfl
        · exact hk q hq
        · exact h3

theorem SortedA.addTo {m : AList ℚ} (h : SortedA m) (key : String) (v : ℚ) :
    SortedA (addTo m key v) := h.upd key _

theorem afind_eq_none_of_sorted_head {α : Type} {k : String} {v : α}
    {rest : AList α} (h : SortedA ((k, v) :: rest)) : afind rest k = none := by
  rcases List.pairwise_cons.mp h with ⟨hk, _⟩
  refine afind_eq_none_of_not_key fun p hp e => ?_
  exact absurd (e ▸ hk p hp) (lt_irrefl _)

theorem sortedA_ext {α : Type} {m₁ m₂ : AList α} (h₁ : SortedA m₁)
    (h₂ : SortedA m₂) (h : ∀ k, afind m₁ k = afind m₂ k) : m₁ = m₂ := by
  induction m₁ generalizing m₂ with
  | nil =>
    cases m₂ with
    | nil => rfl
    | cons p t =>
      obtain ⟨k, v⟩ := p
      have := h k
      simp [afind, afind_cons] at this
  | cons p t ih =>
    obtain ⟨k, v⟩ := p
    cases m₂ with
    | nil =>
      have := h k
      simp [afind, afind_cons] at this
    | cons q t' =>
      obtain ⟨k', v'⟩ := q
      have hkk : k = k' := by
        by_contra hne
        have hdne : k.data ≠ k'.data := fun e => hne (data_eq_iff.mp e)
        rcases lt_or_gt_of_ne hdne with hlt | hgt
        · have e1 : afind ((k, v) :: t) k = some v := by simp [afind_cons]
          have e2 : afind ((k', v') :: t') k = none := by
            rw [afind_cons,
              if_neg (fun e => hdne (data_eq_iff.mpr e.symm))]
            refine afind_eq_none_of_not_key fun p hp e => ?_
            rcases List.pairwise_cons.mp h₂ with ⟨hk', _⟩
            exact absurd (e ▸ hk' p hp) (fun hc => absurd (lt_trans hlt hc) (lt_irrefl _))
          rw [h k, e2] at e1
          exact Option.noConfusion e1
        · have e1 : afind ((k', v') :: t') k' = some v' := by simp [afind_cons]
          have e2 : afind ((k, v) :: t) k' = none := by
            rw [afind_cons,
              if_neg (fun e => hdne (data_eq_iff.mpr e))]
            refine afind_eq_none_of_not_key fun p hp e => ?_
            rcases List.pairwise_cons.mp h₁ with ⟨hk, _⟩
            exact absurd (e ▸ hk p hp) (fun hc => absurd (lt_trans hgt hc) (lt_irrefl _))
          rw [← h k', e2] at e1
          exact Option.noConfusion e1
      subst hkk
      have hvv : v = v' := by
        have := h k
        simp [afind_cons] at this
        exact this
      subst hvv
      have htails : ∀ key, afind t key = afind t' key := by
        intro key
        by_cases hkey : k = key
        · subst hkey
          rw [afind_eq_none_of_sorted_head h₁, afind_eq_none_of_sorted_head h₂]
        · have := h key
          rwa [afind_cons, afind_cons, if_neg hkey, if_neg hkey] at this
      rw [ih (List.pairwise_cons.mp h₁).2 (List.pairwise_cons.mp h₂).2 htails]

theorem sum_filter_eq_afindD {m : AList ℚ} (hs : SortedA m) (nm : String) :
    ((m.filter fun p => p.1 = nm).map Prod.snd).sum = afindD m nm := by
  induction m with
  | nil => simp [afindD, afind]
  | cons p rest ih =>
    obtain ⟨k, v⟩ := p
    rcases List.pairwise_cons.mp hs with ⟨hk, hrest⟩
    by_cases h1 : k = nm
    · subst h1
      have hnone : (rest.filter fun p => p.1 = k) = [] := by
        refine List.filter_eq_nil_iff.mpr fun p hp => ?_
        have : p.1 ≠ k := fun e => absurd (e ▸ hk p hp) (lt_irrefl _)
        simp [this]
      simp [List.filter, hnone, afindD, afind_cons]
    · simp only [afindD, afind_cons, if_neg h1]
      have hih := ih hrest
      simp only [afindD] at hih
      simp [List.filter, h1, hih]

/-! ### The common Dimension Filter loop -/

theorem buildFrom_nil {α β : Type} (P : β → Bool) (key : β → String)
    (val : β → α) (m : AList α) : buildFrom P key val m [] = m := rfl

theorem buildFrom_cons {α β : Type} (P : β → Bool) (key : β → String)
    (val : β → α) (m : AList α) (x : β) (rows : List β) :
    buildFrom P key val m (x :: rows) =
      buildFrom P key val (buildStep P key val m x) rows := rfl

theorem SortedA.buildFrom {α β : Type} (P : β → Bool) (key : β → String)
    (val : β → α) (rows : List β) {m : AList α} (h : SortedA m) :
    SortedA (buildFrom P key val m rows) := by
  induction rows generalizing m with
  | nil => exact h
  | cons x rows ih =>
    rw [buildFrom_cons]
    refine ih ?_
    unfold buildStep
    by_cases hP : P x
    · simpa [hP] using h.upd (key x) (val x)
    · simpa [hP] using h

theorem afind_buildFrom_isSome {α β : Type} (P : β → Bool)
    (key : β → String) (val : β → α) (rows : List β) (m : AList α)
    (k : String) :
    (afind (buildFrom P key val m rows) k).isSome = true ↔
      (afind m k).isSome = true ∨ ∃ x ∈ rows, P x = true ∧ key x = k := by
  induction rows generalizing m with
  | nil => simp [buildFrom]
  | cons x rows ih =>
    rw [buildFrom_cons, ih]
    unfold buildStep
    by_cases hP : P x
    · by_cases hk : key x = k
      · simp only [hP, if_true, afind_upd, hk, if_pos rfl]
        simp [hP, hk]
      · simp only [hP, if_true, afind_upd, hk, if_neg hk]
        simp only [List.mem_cons]
        constructor
        · rintro (h | ⟨y, hy, hPy, hky⟩)
          · exact Or.inl h
          · exact Or.inr ⟨y, Or.inr hy, hPy, hky⟩
        · rintro (h | ⟨y, rfl | hy, hPy, hky⟩)
          · exact Or.inl h
          · exact absurd hky hk
          · exact Or.inr ⟨y, hy, hPy, hky⟩
    · simp only [hP, if_false, Bool.false_eq_true, List.mem_cons]
      constructor
      · rintro (h | ⟨y, hy, hPy, hky⟩)
        · exact Or.inl h
        · exact Or.inr ⟨y, Or.inr hy, hPy, hky⟩
      · rintro (h | ⟨y, rfl | hy, hPy, hky⟩)
        · exact Or.inl h
        · exact absurd hPy hP
        · exact Or.inr ⟨y, hy, hPy, hky⟩

theorem afind_buildFrom_eq_some {α β : Type} (P : β → Bool)
    (key : β → String) (val : β → α) {rows : List β}
    (hnd : (rows.map key).Nodup) (m : AList α) (k : String) (v : α) :
    afind (buildFrom P key val m rows) k = some v ↔
      (∃ x ∈ rows, P x = true ∧ key x = k ∧ val x = v) ∨
      (afind m k = some v ∧ ∀ x ∈ rows, ¬(P x = true ∧ key x = k)) := by
  induction rows generalizing m with
  | nil => simp [buildFrom]
  | cons x rows ih =>
    rw [List.map_cons, List.nodup_cons] at hnd
    obtain ⟨hx, hnd⟩ := hnd
    rw [buildFrom_cons, ih hnd]
    unfold buildStep
    by_cases hP : P x
    · by_cases hk : key x = k
      · have hrows : ∀ y ∈ rows, key y ≠ k := by
          intro y hy e
          exact hx (hk ▸ e ▸ List.mem_map_of_mem key hy)
        simp only [hP, if_true, afind_upd, hk, if_pos rfl, List.mem_cons]
        constructor
        · rintro (⟨y, hy, _, hky, _⟩ | ⟨he, _⟩)
          · exact absurd hky (hrows y hy)
          · exact Or.inl ⟨x, Or.inl rfl, hP, hk, (Option.some.injEq _ _ ▸ he).symm ▸ rfl⟩
        · rintro (⟨y, rfl | hy, hPy, hky, hvy⟩ | ⟨_, hall⟩)
          · exact Or.inr ⟨by rw [hvy], fun y hy ⟨_, hky⟩ => hrows y hy hky⟩
          · exact absurd hky (hrows y hy)
          · exact absurd ⟨hP, hk⟩ (hall x (Or.inl rfl))
      · simp only [hP, if_true, afind_upd, hk, if_neg hk, List.mem_cons]
        constructor
        · rintro (⟨y, hy, h⟩ | ⟨he, hall⟩)
          · exact Or.inl ⟨y, Or.inr hy, h⟩
          · refine Or.inr ⟨he, ?_⟩
            rintro y (rfl | hy)
            · rintro ⟨_, hky⟩
              exact hk hky
            · exact hall y hy
        · rintro (⟨y, rfl | hy, h⟩ | ⟨he, hall⟩)
          · exact absurd h.2.1 hk
          · exact Or.inl ⟨y, hy, h⟩
          · exact Or.inr ⟨he, fun y hy => hall y (Or.inr hy)⟩
    · simp only [hP, if_false, List.mem_cons]
      constructor
      · rintro (⟨y, hy, h⟩ | ⟨he, hall⟩)
        · exact Or.inl ⟨y, Or.inr hy, h⟩
        · refine Or.inr ⟨he, ?_⟩
          rintro y (rfl | hy)
          · rintro ⟨hPy, _⟩
            exact hP hPy
          · exact hall y hy
      · rintro (⟨y, rfl | hy, h⟩ | ⟨he, hall⟩)
        · exact absurd h.1 hP
        · exact Or.inl ⟨y, hy, h⟩
        · exact Or.inr ⟨he, fun y hy => hall y (Or.inr hy)⟩

theorem afind_buildFrom_val {α β : Type} (P : β → Bool) (key : β → String)
    (val : β → α) (rows : List β) (m : AList α) (k : String) (v : α)
    (h : afind (buildFrom P key val m rows) k = some v) :
    (∃ x ∈ rows, P x = true ∧ val x = v) ∨ afind m k = some v := by
  induction rows generalizing m with
  | nil => exact Or.inr h
  | cons x rows ih =>
    rw [buildFrom_cons] at h
    rcases ih _ h with hex | hstep
    · rcases hex with ⟨y, hy, hPy, hvy⟩
      exact Or.inl ⟨y, List.mem_cons_of_mem _ hy, hPy, hvy⟩
    · unfold buildStep at hstep
      by_cases hP : P x
      · rw [if_pos hP, afind_upd] at hstep
        by_cases hk : key x = k
        · rw [if_pos hk] at hstep
          exact Or.inl ⟨x, List.mem_cons_self _ _, hP, (Option.some.injEq _ _ ▸ hstep)⟩
        · rw [if_neg hk] at hstep
          exact Or.inr hstep
      · rw [if_neg hP] at hstep
        exact Or.inr hstep

/-! ### The five derived mappings, in `buildFrom` form -/

theorem validCustomers_eq (cd : List Customer) (nk2n : AList String) :
    validCustomers cd nk2n =
      buildFrom (fun c => (afind nk2n c.c_nationkey).isSome)
        Customer.c_custkey Customer.c_nationkey [] cd := rfl

theorem validSuppliers_eq (sd : List Supplier) (nk2n : AList String) :
    validSuppliers sd nk2n =
      buildFrom (fun s => (afind nk2n s.s_nationkey).isSome)
        Supplier.s_suppkey Supplier.s_nationkey [] sd := rfl

theorem validOrders_eq (od : List Order) (sd ed : String)
    (vc : AList String) :
    validOrders od sd ed vc =
      buildFrom
        (fun o => decide (sd.data ≤ o.o_orderdate.data ∧
            o.o_orderdate.data < ed.data) &&
          (afind vc o.o_custkey).isSome)
        Order.o_orderkey Order.o_custkey [] od := by
  unfold validOrders buildFrom
  refine List.foldl_ext _ _ _ fun m o _ => ?_
  simp only [buildStep]
  by_cases hd : sd.data ≤ o.o_orderdate.data ∧ o.o_orderdate.data < ed.data
  · by_cases hc : (afind vc o.o_custkey).isSome = true
    · rw [if_pos hd, if_pos hc, if_pos (by simp [hd, hc])]
    · rw [if_pos hd, if_neg hc, if_neg (by simp [hc])]
  · rw [if_neg hd, if_neg (by
      intro hcon
      rw [Bool.and_eq_true] at hcon
      exact hd (of_decide_eq_true hcon.1))]

theorem inner_region_loop (n : Nation) (keys : List String)
    (m : AList String) :
    keys.foldl
        (fun m r_key =>
          if n.n_regionkey = r_key then upd m n.n_nationkey n.n_name else m)
        m =
      if n.n_regionkey ∈ keys then upd m n.n_nationkey n.n_name else m := by
  induction keys generalizing m with
  | nil => simp
  | cons rk keys ih =>
    rw [List.foldl_cons]
    by_cases h : n.n_regionkey = rk
    · rw [if_pos h, ih]
      by_cases hm : n.n_regionkey ∈ keys <;>
        simp [hm, upd_idem, h, List.mem_cons]
    · rw [if_neg h, ih]
      simp [List.mem_cons, h]

theorem nationKeyToName_eq (nd : List Nation) (vrk : List String) :
    nationKeyToName nd vrk =
      buildFrom (fun n => decide (n.n_regionkey ∈ vrk))
        Nation.n_nationkey Nation.n_name [] nd := by
  unfold nationKeyToName buildFrom
  refine List.foldl_ext _ _ _ fun m n _ => ?_
  rw [inner_region_loop]
  unfold buildStep
  by_cases hm : n.n_regionkey ∈ vrk <;> simp [hm]

theorem mem_validRegionKeys (rd : List Region) (rn : String) (k : String) :
    k ∈ validRegionKeys rd rn ↔
      ∃ r ∈ rd, r.r_name = rn ∧ r.r_regionkey = k := by
  have main : ∀ acc : List String,
      k ∈ rd.foldl
          (fun acc r =>
            if r.r_name = rn then acc ++ [r.r_regionkey] else acc) acc ↔
        k ∈ acc ∨ ∃ r ∈ rd, r.r_name = rn ∧ r.r_regionkey = k := by
    induction rd with
    | nil => simp
    | cons r rd ih =>
      intro acc
      rw [List.foldl_cons]
      by_cases h : r.r_name = rn
      · rw [if_pos h, ih]
        simp only [List.mem_append, List.mem_singleton, List.mem_cons,
          List.not_mem_nil, or_false]
        constructor
        · rintro ((h1 | rfl) | ⟨r', hr', h'⟩)
          · exact Or.inl h1
          · exact Or.inr ⟨r, Or.inl rfl, h, rfl⟩
          · exact Or.inr ⟨r', Or.inr hr', h'⟩
        · rintro (h1 | ⟨r', rfl | hr', hn, hk⟩)
          · exact Or.inl (Or.inl h1)
          · exact Or.inl (Or.inr hk.symm)
          · exact Or.inr ⟨r', hr', hn, hk⟩
      · rw [if_neg h, ih]
        simp only [List.mem_cons]
        constructor
        · rintro (h1 | ⟨r', hr', h'⟩)
          · exact Or.inl h1
          · exact Or.inr ⟨r', Or.inr hr', h'⟩
        · rintro (h1 | ⟨r', rfl | hr', hn, hk⟩)
          · exact Or.inl h1
          · exact absurd hn h
          · exact Or.inr ⟨r', hr', hn, hk⟩
  simpa using main []

/-! ### The worker loop -/

theorem lineContrib_snd {vo vs vc nk2n : AList String} {item : LineItem}
    {p : String × ℚ} (h : lineContrib vo vs vc nk2n item = some p) :
    p.2 = itemRevenue item := by
  revert h
  unfold lineContrib
  cases afind vo item.l_orderkey with
  | none => exact fun h => Option.noConfusion h
  | some ck =>
    cases afind vs item.l_suppkey with
    | none => exact fun h => Option.noConfusion h
    | some sn =>
      show (if (afind vc ck).getD "" = sn then
          some ((afind nk2n sn).getD "", itemRevenue item) else none) = some p →
        p.2 = itemRevenue item
      by_cases h3 : (afind vc ck).getD "" = sn
      · rw [if_pos h3]
        intro h
        cases h
        rfl
      · rw [if_neg h3]
        exact fun h => Option.noConfusion h

theorem processItem_eq (vo vs vc nk2n : AList String) (acc : AList ℚ)
    (item : LineItem) :
    processItem vo vs vc nk2n acc item =
      if passesFilters vo vs vc item && parseFails item then .error ()
      else .ok (stepT vo vs vc nk2n acc item) := by
  unfold processItem stepT lineContrib passesFilters parseFails
  cases h1 : afind vo item.l_orderkey with
  | none => simp [h1]
  | some ck =>
    simp only [h1]
    cases h2 : afind vs item.l_suppkey with
    | none => simp
    | some sn =>
      simp only
      by_cases h3 : (afind vc ck).getD "" = sn
      · cases h4 : parseNum item.l_extendedprice with
        | none => simp [h3, h4]
        | some p =>
          cases h5 : parseNum item.l_discount with
          | none => simp [h3, h4, h5]
          | some d => simp [h3, h4, h5, itemRevenue]
      · simp [h3]

theorem foldlM_processItem (vo vs vc nk2n : AList String)
    (items : List LineItem) (acc : AList ℚ) :
    List.foldlM (processItem vo vs vc nk2n) acc items =
      if items.any (fun it => passesFilters vo vs vc it && parseFails it) then
        .error ()
      else .ok (items.foldl (stepT vo vs vc nk2n) acc) := by
  induction items generalizing acc with
  | nil => rfl
  | cons it items ih =>
    rw [List.foldlM_cons, processItem_eq]
    by_cases hb : (passesFilters vo vs vc it && parseFails it) = true
    · rw [if_pos hb, if_pos (by simp [hb])]
      rfl
    · rw [if_neg hb]
      have hb' : (passesFilters vo vs vc it && parseFails it) = false := by
        simpa using hb
      rw [show (do
            let init ← Except.ok (stepT vo vs vc nk2n acc it)
            List.foldlM (processItem vo vs vc nk2n) init items) =
          List.foldlM (processItem vo vs vc nk2n)
            (stepT vo vs vc nk2n acc it) items from rfl, ih]
      simp [List.any_cons, hb', List.foldl_cons]

theorem runWorker_eq (vo vs vc nk2n : AList String) (items : List LineItem) :
    runWorker vo vs vc nk2n items =
      if items.any (fun it => passesFilters vo vs vc it && parseFails it) then
        .error ()
      else .ok (items.foldl (stepT vo vs vc nk2n) []) :=
  foldlM_processItem vo vs vc nk2n items []

theorem SortedA.foldl_stepT {acc : AList ℚ} (h : SortedA acc)
    (vo vs vc nk2n : AList String) (items : List LineItem) :
    SortedA (items.foldl (stepT vo vs vc nk2n) acc) := by
  induction items generalizing acc with
  | nil => exact h
  | cons it items ih =>
    rw [List.foldl_cons]
    refine ih ?_
    unfold stepT
    cases lineContrib vo vs vc nk2n it with
    | none => exact h
    | some p => exact h.addTo p.1 p.2

theorem stepT_of_none {vo vs vc nk2n : AList String} {it : LineItem}
    (acc : AList ℚ) (h : lineContrib vo vs vc nk2n it = none) :
    stepT vo vs vc nk2n acc it = acc := by
  unfold stepT
  rw [h]

theorem stepT_of_some {vo vs vc nk2n : AList String} {it : LineItem}
    {p : String × ℚ} (acc : AList ℚ)
    (h : lineContrib vo vs vc nk2n it = some p) :
    stepT vo vs vc nk2n acc it = addTo acc p.1 p.2 := by
  unfold stepT
  rw [h]

theorem contribTo_of_none {vo vs vc nk2n : AList String} {it : LineItem}
    (nm : String) (h : lineContrib vo vs vc nk2n it = none) :
    contribTo vo vs vc nk2n nm it = false := by
  unfold contribTo
  rw [h]

theorem contribTo_of_some {vo vs vc nk2n : AList String} {it : LineItem}
    {p : String × ℚ} (nm : String)
    (h : lineContrib vo vs vc nk2n it = some p) :
    contribTo vo vs vc nk2n nm it = decide (p.1 = nm) := by
  unfold contribTo
  rw [h]

theorem afindD_foldl_stepT (vo vs vc nk2n : AList String)
    (items : List LineItem) (acc : AList ℚ) (nm : String) :
    afindD (items.foldl (stepT vo vs vc nk2n) acc) nm =
      afindD acc nm +
        ((items.filter (contribTo vo vs vc nk2n nm)).map itemRevenue).sum := by
  induction items generalizing acc with
  | nil => simp
  | cons it items ih =>
    rw [List.foldl_cons, ih, List.filter_cons]
    cases h : lineContrib vo vs vc nk2n it with
    | none =>
      rw [stepT_of_none acc h, contribTo_of_none nm h]
      simp
    | some p =>
      rw [stepT_of_some acc h, contribTo_of_some nm h]
      by_cases hnm : p.1 = nm
      · rw [if_pos (by simp [hnm]), afindD_addTo, if_pos hnm,
          List.map_cons, List.sum_cons, lineContrib_snd h]
        ring
      · rw [if_neg (by simp [hnm]), afindD_addTo, if_neg hnm]
        ring

theorem isSome_foldl_stepT (vo vs vc nk2n : AList String)
    (items : List LineItem) (acc : AList ℚ) (nm : String) :
    (afind (items.foldl (stepT vo vs vc nk2n) acc) nm).isSome = true ↔
      (afind acc nm).isSome = true ∨
        items.any (contribTo vo vs vc nk2n nm) = true := by
  induction items generalizing acc with
  | nil => simp
  | cons it items ih =>
    rw [List.foldl_cons, ih, List.any_cons]
    cases h : lineContrib vo vs vc nk2n it with
    | none =>
      rw [stepT_of_none acc h, contribTo_of_none nm h]
      simp
    | some p =>
      rw [stepT_of_some acc h, contribTo_of_some nm h, isSome_afind_addTo]
      by_cases hnm : p.1 = nm
      · simp [hnm]
      · simp [hnm]

/-! ### The merge loop -/

theorem sortedA_mergeInto {res : AList ℚ} (h : SortedA res)
    (part : AList ℚ) : SortedA (mergeInto res part) := by
  induction part generalizing res with
  | nil => exact h
  | cons p ps ih => exact ih (h.addTo p.1 p.2)

theorem afindD_mergeInto (res part : AList ℚ) (hs : SortedA part)
    (nm : String) :
    afindD (mergeInto res part) nm = afindD res nm + afindD part nm := by
  rw [← sum_filter_eq_afindD hs nm]
  unfold mergeInto
  clear hs
  induction part generalizing res with
  | nil => simp
  | cons p ps ih =>
    rw [List.foldl_cons, ih, List.filter_cons]
    by_cases hnm : p.1 = nm
    · rw [if_pos (by simp [hnm]), afindD_addTo, if_pos hnm,
        List.map_cons, List.sum_cons]
      ring
    · rw [if_neg (by simp [hnm]), afindD_addTo, if_neg hnm]
      ring

theorem isSome_mergeInto (res part : AList ℚ) (nm : String) :
    (afind (mergeInto res part) nm).isSome = true ↔
      (afind res nm).isSome = true ∨ (afind part nm).isSome = true := by
  rw [afind_isSome_iff part nm]
  unfold mergeInto
  induction part generalizing res with
  | nil => simp
  | cons p ps ih =>
    rw [List.foldl_cons, ih, isSome_afind_addTo]
    constructor
    · rintro ((rfl | h) | ⟨v, hv⟩)
      · exact Or.inr ⟨p.2, List.mem_cons_self _ _⟩
      · exact Or.inl h
      · exact Or.inr ⟨v, List.mem_cons_of_mem _ hv⟩
    · rintro (h | ⟨v, hv⟩)
      · exact Or.inl (Or.inr h)
      · rcases List.mem_cons.mp hv with he | hv
        · exact Or.inl (Or.inl (congrArg Prod.fst he.symm))
        · exact Or.inr ⟨v, hv⟩

theorem sortedA_merge_parts {res : AList ℚ} (h : SortedA res)
    (parts : List (AList ℚ)) : SortedA (parts.foldl mergeInto res) := by
  induction parts generalizing res with
  | nil => exact h
  | cons p ps ih => exact ih (sortedA_mergeInto h p)

theorem afindD_merge_parts (parts : List (AList ℚ))
    (hs : ∀ p ∈ parts, SortedA p) (res : AList ℚ) (nm : String) :
    afindD (parts.foldl mergeInto res) nm =
      afindD res nm + (parts.map fun p => afindD p nm).sum := by
  induction parts generalizing res with
  | nil => simp
  | cons p ps ih =>
    rw [List.foldl_cons, ih fun q hq => hs q (List.mem_cons_of_mem _ hq),
      afindD_mergeInto res p (hs p (List.mem_cons_self _ _))]
    rw [List.map_cons, List.sum_cons]
    ring

theorem isSome_merge_parts (parts : List (AList ℚ)) (res : AList ℚ)
    (nm : String) :
    (afind (parts.foldl mergeInto res) nm).isSome = true ↔
      (afind res nm).isSome = true ∨
        ∃ p ∈ parts, (afind p nm).isSome = true := by
  induction parts generalizing res with
  | nil => simp
  | cons p ps ih =>
    rw [List.foldl_cons, ih, isSome_mergeInto]
    constructor
    · rintro ((h | h) | ⟨q, hq, h⟩)
      · exact Or.inl h
      · exact Or.inr ⟨p, List.mem_cons_self _ _, h⟩
      · exact Or.inr ⟨q, List.mem_cons_of_mem _ hq, h⟩
    · rintro (h | ⟨q, hq, h⟩)
      · exact Or.inl (Or.inl h)
      · rcases List.mem_cons.mp hq with rfl | hq
        · exact Or.inl (Or.inr h)
        · exact Or.inr ⟨q, hq, h⟩

/-! ### Chunking -/

theorem take_add_split {α : Type} (l : List α) (a b : Nat) :
    l.take (a + b) = l.take a ++ (l.drop a).take b := by
  conv_lhs => rw [← List.take_append_drop a (l.take (a + b))]
  rw [List.take_take, Nat.min_eq_left (Nat.le_add_right a b), ← List.take_drop]

theorem chunkSeg_simple {l : List LineItem} {nt i : Nat} (h : i ≠ nt - 1) :
    chunkSeg l nt i = (l.drop (i * (l.length / nt))).take (l.length / nt) := by
  show (l.drop (i * (l.length / nt))).take
      ((if i = nt - 1 then l.length else (i + 1) * (l.length / nt)) -
        i * (l.length / nt)) =
    (l.drop (i * (l.length / nt))).take (l.length / nt)
  rw [if_neg h, Nat.succ_mul, Nat.add_sub_cancel_left]

theorem chunkSeg_last (l : List LineItem) (nt : Nat) :
    chunkSeg l nt (nt - 1) = l.drop ((nt - 1) * (l.length / nt)) := by
  show (l.drop ((nt - 1) * (l.length / nt))).take
      ((if nt - 1 = nt - 1 then l.length else (nt - 1 + 1) * (l.length / nt)) -
        (nt - 1) * (l.length / nt)) =
    l.drop ((nt - 1) * (l.length / nt))
  rw [if_pos rfl]
  refine List.take_of_length_le ?_
  rw [List.length_drop]

theorem simple_chunks_flatten (l : List LineItem) (c : Nat) (m : Nat) :
    ((List.range m).map (fun i => (l.drop (i * c)).take c)).flatten =
      l.take (m * c) := by
  induction m with
  | zero => simp
  | succ m ih =>
    rw [List.range_succ, List.map_append, List.flatten_append, ih]
    simp only [List.map_cons, List.map_nil, List.flatten_cons,
      List.flatten_nil, List.append_nil]
    rw [← take_add_split, Nat.succ_mul]

theorem chunkSeg_flatten (l : List LineItem) {nt : Nat} (hnt : 1 ≤ nt) :
    ((List.range nt).map (chunkSeg l nt)).flatten = l := by
  obtain ⟨k, rfl⟩ : ∃ k, nt = k + 1 := ⟨nt - 1, by omega⟩
  rw [List.range_succ, List.map_append, List.flatten_append]
  have hmap : (List.range k).map (chunkSeg l (k + 1)) =
      (List.range k).map
        (fun i => (l.drop (i * (l.length / (k + 1)))).take (l.length / (k + 1))) := by
    refine List.map_congr_left fun i hi => ?_
    rw [List.mem_range] at hi
    exact chunkSeg_simple (by omega)
  have hlast : chunkSeg l (k + 1) k = l.drop (k * (l.length / (k + 1))) := by
    have := chunkSeg_last l (k + 1)
    simpa using this
  rw [hmap, simple_chunks_flatten]
  simp only [List.map_cons, List.map_nil, List.flatten_cons,
    List.flatten_nil, List.append_nil, hlast]
  exact List.take_append_drop _ l

theorem any_over_chunks (l : List LineItem) {nt : Nat} (hnt : 1 ≤ nt)
    (p : LineItem → Bool) :
    ((List.range nt).any fun i => (chunkSeg l nt i).any p) = true ↔
      ∃ it ∈ l, p it = true := by
  simp only [List.any_eq_true]
  constructor
  · rintro ⟨i, hi, it, hit, hp⟩
    refine ⟨it, ?_, hp⟩
    rw [← chunkSeg_flatten l hnt]
    exact List.mem_flatten_of_mem (List.mem_map_of_mem _ hi) hit
  · rintro ⟨it, hit, hp⟩
    rw [← chunkSeg_flatten l hnt] at hit
    rcases List.mem_flatten.mp hit with ⟨ch, hch, hin⟩
    rcases List.mem_map.mp hch with ⟨i, hi, rfl⟩
    exact ⟨i, hi, it, hin, hp⟩

theorem sum_filter_map_flatten (chs : List (List LineItem))
    (q : LineItem → Bool) (f : LineItem → ℚ) :
    ((chs.flatten.filter q).map f).sum =
      (chs.map fun ch => ((ch.filter q).map f).sum).sum := by
  induction chs with
  | nil => simp
  | cons ch chs ih =>
    rw [List.flatten_cons, List.filter_append, List.map_append,
      List.sum_append, ih, List.map_cons, List.sum_cons]

/-! ### The full engine -/

theorem mapM_runWorker (vo vs vc nk2n : AList String)
    (segf : Nat → List LineItem) (idx : List Nat) :
    (idx.mapM fun i => runWorker vo vs vc nk2n (segf i)) =
      if idx.any
          (fun i => (segf i).any fun it =>
            passesFilters vo vs vc it && parseFails it) then
        .error ()
      else .ok (idx.map fun i => (segf i).foldl (stepT vo vs vc nk2n) []) := by
  induction idx with
  | nil => rfl
  | cons i idx ih =>
    rw [List.mapM_cons, runWorker_eq, ih]
    by_cases hb : ((segf i).any fun it =>
        passesFilters vo vs vc it && parseFails it) = true
    · have hcons : ((i :: idx).any fun i => (segf i).any fun it =>
          passesFilters vo vs vc it && parseFails it) = true := by
        rw [List.any_cons, hb]
        rfl
      rw [if_pos hb, if_pos hcons]
      rfl
    · have hb' : ((segf i).any fun it =>
          passesFilters vo vs vc it && parseFails it) = false := by
        simpa using hb
      rw [if_neg hb]
      by_cases hrest : (idx.any fun i => (segf i).any fun it =>
          passesFilters vo vs vc it && parseFails it) = true
      · have hcons : ((i :: idx).any fun i => (segf i).any fun it =>
            passesFilters vo vs vc it && parseFails it) = true := by
          rw [List.any_cons, hb', hrest]
          rfl
        rw [if_pos hrest, if_pos hcons]
        rfl
      · have hrest' : (idx.any fun i => (segf i).any fun it =>
            passesFilters vo vs vc it && parseFails it) = false := by
          simpa using hrest
        have hcons : ¬(((i :: idx).any fun i => (segf i).any fun it =>
            passesFilters vo vs vc it && parseFails it) = true) := by
          rw [List.any_cons, hb', hrest']
          exact fun h => Bool.noConfusion h
        rw [if_neg hrest, if_neg hcons]
        rfl

theorem executeQuery5_def (r_name start_date end_date : String)
    (nt : Nat) (inp : QueryInput) :
    executeQuery5 r_name start_date end_date nt inp =
      ((List.range nt).mapM fun i =>
          runWorker (voOf r_name start_date end_date inp) (vsOf r_name inp)
            (vcOf r_name inp) (nk2nOf r_name inp)
            (chunkSeg inp.lineitem_data nt i)) >>=
        fun parts => pure (parts.foldl mergeInto []) := rfl

theorem executeQuery5_error_iff (r_name start_date end_date : String)
    {nt : Nat} (hnt : 1 ≤ nt) (inp : QueryInput) :
    executeQuery5 r_name start_date end_date nt inp = .error () ↔
      ∃ it ∈ inp.lineitem_data,
        (passesFilters (voOf r_name start_date end_date inp)
            (vsOf r_name inp) (vcOf r_name inp) it && parseFails it) = true := by
  rw [executeQuery5_def, mapM_runWorker]
  by_cases hany : ((List.range nt).any fun i =>
      (chunkSeg inp.lineitem_data nt i).any fun it =>
        passesFilters (voOf r_name start_date end_date inp) (vsOf r_name inp)
            (vcOf r_name inp) it && parseFails it) = true
  · rw [if_pos hany]
    exact iff_of_true rfl ((any_over_chunks _ hnt _).mp hany)
  · rw [if_neg hany]
    refine iff_of_false (fun h => Except.noConfusion h) fun hex => ?_
    exact hany ((any_over_chunks _ hnt _).mpr hex)

theorem executeQuery5_ok_char (r_name start_date end_date : String)
    {nt : Nat} (hnt : 1 ≤ nt) (inp : QueryInput) {res : AList ℚ}
    (hok : executeQuery5 r_name start_date end_date nt inp = .ok res) :
    SortedA res ∧ ∀ nm : String,
      afindD res nm =
        ((inp.lineitem_data.filter
            (contribTo (voOf r_name start_date end_date inp) (vsOf r_name inp)
              (vcOf r_name inp) (nk2nOf r_name inp) nm)).map itemRevenue).sum ∧
      ((afind res nm).isSome = true ↔
        inp.lineitem_data.any
          (contribTo (voOf r_name start_date end_date inp) (vsOf r_name inp)
            (vcOf r_name inp) (nk2nOf r_name inp) nm) = true) := by
  rw [executeQuery5_def, mapM_runWorker] at hok
  by_cases hany : ((List.range nt).any fun i =>
      (chunkSeg inp.lineitem_data nt i).any fun it =>
        passesFilters (voOf r_name start_date end_date inp) (vsOf r_name inp)
            (vcOf r_name inp) it && parseFails it) = true
  · rw [if_pos hany] at hok
    exact Except.noConfusion hok
  · rw [if_neg hany] at hok
    have hres : res = ((List.range nt).map fun i =>
        (chunkSeg inp.lineitem_data nt i).foldl
          (stepT (voOf r_name start_date end_date inp) (vsOf r_name inp)
            (vcOf r_name inp) (nk2nOf r_name inp)) []).foldl mergeInto [] := by
      have h' : Except.ok (ε := Unit) (((List.range nt).map fun i =>
          (chunkSeg inp.lineitem_data nt i).foldl
            (stepT (voOf r_name start_date end_date inp) (vsOf r_name inp)
              (vcOf r_name inp) (nk2nOf r_name inp)) []).foldl mergeInto []) =
          Except.ok res := hok
      injection h' with h'
      exact h'.symm
    subst hres
    refine ⟨sortedA_merge_parts SortedA.nil _, fun nm => ?_⟩
    constructor
    · rw [afindD_merge_parts]
      · rw [show afindD [] nm = 0 from rfl, zero_add, List.map_map]
        have hcomp : ((fun p => afindD p nm) ∘ fun i =>
            (chunkSeg inp.lineitem_data nt i).foldl
              (stepT (voOf r_name start_date end_date inp) (vsOf r_name inp)
                (vcOf r_name inp) (nk2nOf r_name inp)) []) =
            fun i => (((chunkSeg inp.lineitem_data nt i).filter
              (contribTo (voOf r_name start_date end_date inp) (vsOf r_name inp)
                (vcOf r_name inp) (nk2nOf r_name inp) nm)).map itemRevenue).sum := by
          funext i
          simp only [Function.comp_apply, afindD_foldl_stepT]
          rw [show afindD [] nm = 0 from rfl, zero_add]
        rw [hcomp]
        conv_rhs => rw [← chunkSeg_flatten inp.lineitem_data hnt]
        rw [sum_filter_map_flatten, List.map_map]
        rfl
      · intro p hp
        rcases List.mem_map.mp hp with ⟨i, _, rfl⟩
        exact SortedA.foldl_stepT SortedA.nil _ _ _ _ _
    · rw [isSome_merge_parts]
      rw [show (afind ([] : AList ℚ) nm) = none from rfl]
      simp only [Option.isSome_none, Bool.false_eq_true, false_or]
      constructor
      · rintro ⟨p, hp, hs⟩
        rcases List.mem_map.mp hp with ⟨i, hi, rfl⟩
        rw [isSome_foldl_stepT] at hs
        rcases hs with hs | hs
        · exact absurd hs (by simp [afind])
        · refine (List.any_eq_true).mpr ?_
          have := (any_over_chunks inp.lineitem_data hnt _).mp
            ((List.any_eq_true).mpr ⟨i, hi, hs⟩)
          rcases this with ⟨it, hit, hp'⟩
          exact ⟨it, hit, hp'⟩
      · intro hl
        have := (any_over_chunks inp.lineitem_data hnt
          (contribTo (voOf r_name start_date end_date inp) (vsOf r_name inp)
            (vcOf r_name inp) (nk2nOf r_name inp) nm)).mpr
          (by simpa using (List.any_eq_true).mp hl)
        rcases (List.any_eq_true).mp this with ⟨i, hi, hchunk⟩
        refine ⟨_, List.mem_map_of_mem _ hi, ?_⟩
        rw [isSome_foldl_stepT]
        exact Or.inr hchunk

/-! ### Key-safety of the derived mappings -/

theorem vo_values_in_vc (r_name start_date end_date : String)
    (inp : QueryInput) {k ck : String}
    (h : afind (voOf r_name start_date end_date inp) k = some ck) :
    (afind (vcOf r_name inp) ck).isSome = true := by
  rw [voOf, validOrders_eq] at h
  rcases afind_buildFrom_val _ _ _ _ _ _ _ h with ⟨o, _, hP, hval⟩ | hnil
  · rw [Bool.and_eq_true] at hP
    rw [← hval]
    exact hP.2
  · simp [afind] at hnil

theorem vs_values_in_nk2n (r_name : String) (inp : QueryInput)
    {k nk : String} (h : afind (vsOf r_name inp) k = some nk) :
    (afind (nk2nOf r_name inp) nk).isSome = true := by
  rw [vsOf, validSuppliers_eq] at h
  rcases afind_buildFrom_val _ _ _ _ _ _ _ h with ⟨s, _, hP, hval⟩ | hnil
  · rw [← hval]
    exact hP
  · simp [afind] at hnil

theorem vc_values_in_nk2n (r_name : String) (inp : QueryInput)
    {k nk : String} (h : afind (vcOf r_name inp) k = some nk) :
    (afind (nk2nOf r_name inp) nk).isSome = true := by
  rw [vcOf, validCustomers_eq] at h
  rcases afind_buildFrom_val _ _ _ _ _ _ _ h with ⟨c, _, hP, hval⟩ | hnil
  · rw [← hval]
    exact hP
  · simp [afind] at hnil

/-! ### Row-level characterizations of the derived mappings -/

theorem afind_nk2nOf {r_name : String} {inp : QueryInput}
    (hnd : (inp.nation_data.map Nation.n_nationkey).Nodup)
    (k nm : String) :
    afind (nk2nOf r_name inp) k = some nm ↔
      ∃ n ∈ inp.nation_data, n.n_nationkey = k ∧ n.n_name = nm ∧
        ∃ rg ∈ inp.region_data, rg.r_name = r_name ∧
          rg.r_regionkey = n.n_regionkey := by
  rw [nk2nOf, nationKeyToName_eq, afind_buildFrom_eq_some _ _ _ hnd]
  constructor
  · rintro (⟨n, hn, hP, hkey, hval⟩ | ⟨hnil, _⟩)
    · refine ⟨n, hn, hkey, hval, ?_⟩
      rcases (mem_validRegionKeys _ _ _).mp (of_decide_eq_true hP) with
        ⟨rg, hrg, hname, hkey'⟩
      exact ⟨rg, hrg, hname, hkey'⟩
    · simp [afind] at hnil
  · rintro ⟨n, hn, hkey, hval, rg, hrg, hname, hkey'⟩
    refine Or.inl ⟨n, hn, ?_, hkey, hval⟩
    exact decide_eq_true ((mem_validRegionKeys _ _ _).mpr ⟨rg, hrg, hname, hkey'⟩)

theorem afind_vcOf {r_name : String} {inp : QueryInput}
    (hnd : (inp.customer_data.map Customer.c_custkey).Nodup)
    (ck cnk : String) :
    afind (vcOf r_name inp) ck = some cnk ↔
      ∃ c ∈ inp.customer_data, c.c_custkey = ck ∧ c.c_nationkey = cnk ∧
        (afind (nk2nOf r_name inp) cnk).isSome = true := by
  rw [vcOf, validCustomers_eq, afind_buildFrom_eq_some _ _ _ hnd]
  constructor
  · rintro (⟨c, hc, hP, hkey, hval⟩ | ⟨hnil, _⟩)
    · exact ⟨c, hc, hkey, hval, hval ▸ hP⟩
    · simp [afind] at hnil
  · rintro ⟨c, hc, hkey, hval, hs⟩
    exact Or.inl ⟨c, hc, hval ▸ hs, hkey, hval⟩

theorem afind_vsOf {r_name : String} {inp : QueryInput}
    (hnd : (inp.supplier_data.map Supplier.s_suppkey).Nodup)
    (sk snk : String) :
    afind (vsOf r_name inp) sk = some snk ↔
      ∃ s ∈ inp.supplier_data, s.s_suppkey = sk ∧ s.s_nationkey = snk ∧
        (afind (nk2nOf r_name inp) snk).isSome = true := by
  rw [vsOf, validSuppliers_eq, afind_buildFrom_eq_some _ _ _ hnd]
  constructor
  · rintro (⟨s, hs, hP, hkey, hval⟩ | ⟨hnil, _⟩)
    · exact ⟨s, hs, hkey, hval, hval ▸ hP⟩
    · simp [afind] at hnil
  · rintro ⟨s, hs, hkey, hval, hsome⟩
    exact Or.inl ⟨s, hs, hval ▸ hsome, hkey, hval⟩

theorem afind_voOf {r_name start_date end_date : String} {inp : QueryInput}
    (hnd : (inp.orders_data.map Order.o_orderkey).Nodup)
    (ok ck : String) :
    afind (voOf r_name start_date end_date inp) ok = some ck ↔
      ∃ o ∈ inp.orders_data, o.o_orderkey = ok ∧ o.o_custkey = ck ∧
        start_date.data ≤ o.o_orderdate.data ∧
        o.o_orderdate.data < end_date.data ∧
        (afind (vcOf r_name inp) ck).isSome = true := by
  rw [voOf, validOrders_eq, afind_buildFrom_eq_some _ _ _ hnd]
  constructor
  · rintro (⟨o, ho, hP, hkey, hval⟩ | ⟨hnil, _⟩)
    · rw [Bool.and_eq_true] at hP
      rcases of_decide_eq_true hP.1 with ⟨hd1, hd2⟩
      exact ⟨o, ho, hkey, hval, hd1, hd2, hval ▸ hP.2⟩
    · simp [afind] at hnil
  · rintro ⟨o, ho, hkey, hval, hd1, hd2, hsome⟩
    refine Or.inl ⟨o, ho, ?_, hkey, hval⟩
    rw [Bool.and_eq_true]
    exact ⟨decide_eq_true ⟨hd1, hd2⟩, hval ▸ hsome⟩

/-! ### Reduction helpers for the worker body -/

theorem lineContrib_eq_of {vo vs vc nk2n : AList String} {li : LineItem}
    {ck snk : String} (h1 : afind vo li.l_orderkey = some ck)
    (h2 : afind vs li.l_suppkey = some snk) :
    lineContrib vo vs vc nk2n li =
      if (afind vc ck).getD "" = snk then
        some ((afind nk2n snk).getD "", itemRevenue li)
      else none := by
  unfold lineContrib
  rw [h1, h2]

theorem lineContrib_none_of_vo {vo vs vc nk2n : AList String}
    {li : LineItem} (h1 : afind vo li.l_orderkey = none) :
    lineContrib vo vs vc nk2n li = none := by
  unfold lineContrib
  rw [h1]

theorem lineContrib_none_of_vs {vo vs vc nk2n : AList String}
    {li : LineItem} {ck : String} (h1 : afind vo li.l_orderkey = some ck)
    (h2 : afind vs li.l_suppkey = none) :
    lineContrib vo vs vc nk2n li = none := by
  unfold lineContrib
  rw [h1, h2]

theorem contribTo_true_iff (vo vs vc nk2n : AList String) (nm : String)
    (li : LineItem) :
    contribTo vo vs vc nk2n nm li = true ↔
      ∃ v, lineContrib vo vs vc nk2n li = some (nm, v) := by
  unfold contribTo
  cases h : lineContrib vo vs vc nk2n li with
  | none => simp
  | some p =>
    obtain ⟨a, b⟩ := p
    simp

theorem bool_eq_of_iff {a b : Bool} (h : a = true ↔ b = true) : a = b := by
  cases a <;> cases b <;> simp_all

/-! ### Bridging the worker's map-based row test to the spec-side predicate -/

theorem qualifies_iff (r_name start_date end_date : String)
    (inp : QueryInput) (nm : String) (li : LineItem) :
    qualifies r_name start_date end_date inp nm li = true ↔
      ∃ o ∈ inp.orders_data, o.o_orderkey = li.l_orderkey ∧
        start_date.data ≤ o.o_orderdate.data ∧
        o.o_orderdate.data < end_date.data ∧
      ∃ c ∈ inp.customer_data, c.c_custkey = o.o_custkey ∧
      ∃ s ∈ inp.supplier_data, s.s_suppkey = li.l_suppkey ∧
        c.c_nationkey = s.s_nationkey ∧
      ∃ n ∈ inp.nation_data, n.n_nationkey = s.s_nationkey ∧ n.n_name = nm ∧
      ∃ rg ∈ inp.region_data, rg.r_regionkey = n.n_regionkey ∧
        rg.r_name = r_name := by
  unfold qualifies
  simp only [List.any_eq_true, Bool.and_eq_true, decide_eq_true_eq, and_assoc]

theorem validOrders_isSome_iff (od : List Order) (sd ed : String)
    (vc : AList String) (k : String) :
    (afind (validOrders od sd ed vc) k).isSome = true ↔
      ∃ o ∈ od, o.o_orderkey = k ∧ sd.data ≤ o.o_orderdate.data ∧
        o.o_orderdate.data < ed.data ∧
        (afind vc o.o_custkey).isSome = true := by
  rw [validOrders_eq, afind_buildFrom_isSome]
  simp only [afind, Option.isSome_none, Bool.false_eq_true, false_or]
  constructor
  · rintro ⟨o, ho, hP, hk⟩
    rw [Bool.and_eq_true] at hP
    rcases of_decide_eq_true hP.1 with ⟨h1, h2⟩
    exact ⟨o, ho, hk, h1, h2, hP.2⟩
  · rintro ⟨o, ho, hk, h1, h2, hc⟩
    refine ⟨o, ho, ?_, hk⟩
    rw [Bool.and_eq_true]
    exact ⟨decide_eq_true ⟨h1, h2⟩, hc⟩

theorem contribTo_eq_qualifies (r_name start_date end_date : String)
    (inp : QueryInput) (hnd : NodupKeys inp) (nm : String) (li : LineItem) :
    contribTo (voOf r_name start_date end_date inp) (vsOf r_name inp)
        (vcOf r_name inp) (nk2nOf r_name inp) nm li =
      qualifies r_name start_date end_date inp nm li := by
  obtain ⟨hndN, hndC, hndS, hndO⟩ := hnd
  apply bool_eq_of_iff
  rw [contribTo_true_iff, qualifies_iff]
  constructor
  · rintro ⟨v, hline⟩
    cases h1 : afind (voOf r_name start_date end_date inp) li.l_orderkey with
    | none =>
      rw [lineContrib_none_of_vo h1] at hline
      exact Option.noConfusion hline
    | some ck =>
      cases h2 : afind (vsOf r_name inp) li.l_suppkey with
      | none =>
        rw [lineContrib_none_of_vs h1 h2] at hline
        exact Option.noConfusion hline
      | some snk =>
        rw [lineContrib_eq_of h1 h2] at hline
        by_cases h3 : (afind (vcOf r_name inp) ck).getD "" = snk
        · rw [if_pos h3] at hline
          have hnm : (afind (nk2nOf r_name inp) snk).getD "" = nm := by
            injection hline with h
            exact congrArg Prod.fst h
          rcases (afind_voOf hndO _ _).mp h1 with
            ⟨o, ho, hokey, hocust, hd1, hd2, hvcsome⟩
          rcases Option.isSome_iff_exists.mp hvcsome with ⟨cnk, hvc⟩
          have hcnk : cnk = snk := by
            rw [hvc] at h3
            exact h3
          subst hcnk
          rcases (afind_vcOf hndC _ _).mp hvc with ⟨c, hc, hckey, hcnat, _⟩
          rcases (afind_vsOf hndS _ _).mp h2 with
            ⟨s, hs, hskey, hsnat, hnksome⟩
          rcases Option.isSome_iff_exists.mp hnksome with ⟨nmx, hnk⟩
          have hnmx : nmx = nm := by
            rw [hnk] at hnm
            exact hnm
          subst hnmx
          rcases (afind_nk2nOf hndN _ _).mp hnk with
            ⟨n, hn, hnkey, hnname, rg, hrg, hrgname, hrgkey⟩
          exact ⟨o, ho, hokey, hd1, hd2, c, hc, hckey.trans hocust.symm,
            s, hs, hskey, hcnat.trans hsnat.symm,
            n, hn, hnkey.trans hsnat.symm, hnname, rg, hrg,
            hrgkey, hrgname⟩
        · rw [if_neg h3] at hline
          exact Option.noConfusion hline
  · rintro ⟨o, ho, hokey, hd1, hd2, c, hc, hck, s, hs, hskey, hcs,
      n, hn, hnkey, hnname, rg, hrg, hrgk, hrgn⟩
    have hnk : afind (nk2nOf r_name inp) s.s_nationkey = some nm :=
      (afind_nk2nOf hndN _ _).mpr ⟨n, hn, hnkey, hnname, rg, hrg, hrgn, hrgk⟩
    have hvc : afind (vcOf r_name inp) o.o_custkey = some c.c_nationkey :=
      (afind_vcOf hndC _ _).mpr
        ⟨c, hc, hck, rfl, by rw [hcs, hnk]; rfl⟩
    have hvo : afind (voOf r_name start_date end_date inp) li.l_orderkey =
        some o.o_custkey :=
      (afind_voOf hndO _ _).mpr
        ⟨o, ho, hokey, rfl, hd1, hd2, by rw [hvc]; rfl⟩
    have hvs : afind (vsOf r_name inp) li.l_suppkey = some s.s_nationkey :=
      (afind_vsOf hndS _ _).mpr ⟨s, hs, hskey, rfl, by rw [hnk]; rfl⟩
    refine ⟨itemRevenue li, ?_⟩
    rw [lineContrib_eq_of hvo hvs, if_pos (by rw [hvc]; exact hcs), hnk]
    rfl

/-! ### Further helpers for the claim theorems -/

theorem afind_eq_of_char {m1 m2 : AList ℚ} {k : String}
    (hD : afindD m1 k = afindD m2 k)
    (hS : (afind m1 k).isSome = true ↔ (afind m2 k).isSome = true) :
    afind m1 k = afind m2 k := by
  unfold afindD at hD
  cases o1 : afind m1 k with
  | none =>
    cases o2 : afind m2 k with
    | none => rfl
    | some b =>
      rw [o1, o2] at hS
      simp at hS
  | some a =>
    cases o2 : afind m2 k with
    | none =>
      rw [o1, o2] at hS
      simp at hS
    | some b =>
      rw [o1, o2] at hD
      simp only [Option.getD_some] at hD
      rw [hD]

theorem filter_contribTo_eq_filter_qualifies (r_name start_date end_date : String)
    (inp : QueryInput) (hnd : NodupKeys inp) (nm : String) :
    inp.lineitem_data.filter
        (contribTo (voOf r_name start_date end_date inp) (vsOf r_name inp)
          (vcOf r_name inp) (nk2nOf r_name inp) nm) =
      inp.lineitem_data.filter (qualifies r_name start_date end_date inp nm) :=
  List.filter_congr fun li _ =>
    contribTo_eq_qualifies r_name start_date end_date inp hnd nm li

/-! ### The claims -/

/-- C1: on every run that succeeds (worker count ≥ 1, key columns unique as
TPC-H guarantees), the merged mapping of `executeQuery5` stores under each
nation name exactly the sum of `extended_price * (1 - discount)` over the
line items that qualify for that name — those whose order exists and lies
in `[start_date, end_date)`, whose order's customer and whose supplier
exist and share the same nation key, and whose shared nation lies in the
target region — and a nation name is present in the mapping precisely when
at least one such line item exists. -/
theorem claim_C1 (r_name start_date end_date : String) (num_threads : Nat)
    (inp : QueryInput) (res : AList ℚ) (hnt : 1 ≤ num_threads)
    (hnd : NodupKeys inp)
    (hok : executeQuery5 r_name start_date end_date num_threads inp =
      .ok res) (nm : String) :
    afind res nm =
      if (inp.lineitem_data.filter
          (qualifies r_name start_date end_date inp nm)).isEmpty then none
      else some ((inp.lineitem_data.filter
          (qualifies r_name start_date end_date inp nm)).map itemRevenue).sum := by
  obtain ⟨hsorted, hchar⟩ :=
    executeQuery5_ok_char r_name start_date end_date hnt inp hok
  obtain ⟨hsum, hiff⟩ := hchar nm
  rw [filter_contribTo_eq_filter_qualifies r_name start_date end_date inp hnd nm]
    at hsum
  have hcq : ∀ li ∈ inp.lineitem_data,
      contribTo (voOf r_name start_date end_date inp) (vsOf r_name inp)
        (vcOf r_name inp) (nk2nOf r_name inp) nm li =
      qualifies r_name start_date end_date inp nm li :=
    fun li _ => contribTo_eq_qualifies r_name start_date end_date inp hnd nm li
  by_cases hemp : (inp.lineitem_data.filter
      (qualifies r_name start_date end_date inp nm)).isEmpty = true
  · rw [if_pos hemp]
    have hnoq : ∀ li ∈ inp.lineitem_data,
        ¬(qualifies r_name start_date end_date inp nm li = true) :=
      List.filter_eq_nil_iff.mp (List.isEmpty_iff.mp hemp)
    have hany : inp.lineitem_data.any
        (contribTo (voOf r_name start_date end_date inp) (vsOf r_name inp)
          (vcOf r_name inp) (nk2nOf r_name inp) nm) = false := by
      rw [List.any_eq_false]
      intro li hli
      rw [hcq li hli]
      exact fun hq => hnoq li hli hq
    have hns : ¬((afind res nm).isSome = true) := by
      rw [hiff, hany]
      exact fun h => Bool.noConfusion h
    exact Option.not_isSome_iff_eq_none.mp hns
  · rw [if_neg hemp]
    have hne : (inp.lineitem_data.filter
        (qualifies r_name start_date end_date inp nm)) ≠ [] := by
      intro h
      rw [h] at hemp
      exact hemp rfl
    rcases List.exists_mem_of_ne_nil _ hne with ⟨li, hli⟩
    rcases List.mem_filter.mp hli with ⟨hmem, hq⟩
    have hany : inp.lineitem_data.any
        (contribTo (voOf r_name start_date end_date inp) (vsOf r_name inp)
          (vcOf r_name inp) (nk2nOf r_name inp) nm) = true :=
      List.any_eq_true.mpr ⟨li, hmem, by rw [hcq li hmem]; exact hq⟩
    have hsome := hiff.mpr hany
    rcases Option.isSome_iff_exists.mp hsome with ⟨v, hv⟩
    rw [hv]
    have : v = ((inp.lineitem_data.filter
        (qualifies r_name start_date end_date inp nm)).map itemRevenue).sum := by
      have h' := hsum
      unfold afindD at h'
      rw [hv] at h'
      simpa using h'
    rw [this]

theorem claim_C1_witness :
    afind [("JAPAN", (110 : ℚ))] "JAPAN" =
      if (sampleInput.lineitem_data.filter
          (qualifies "ASIA" "1994-01-01" "1995-01-01" sampleInput
            "JAPAN")).isEmpty then none
      else some ((sampleInput.lineitem_data.filter
          (qualifies "ASIA" "1994-01-01" "1995-01-01" sampleInput
            "JAPAN")).map itemRevenue).sum :=
  claim_C1 "ASIA" "1994-01-01" "1995-01-01" 1 sampleInput
    [("JAPAN", (110 : ℚ))] (by decide)
    ⟨by decide, by decide, by decide, by decide⟩
    (by with_unfolding_all rfl) "JAPAN"

/-- C2: over the exact-rational model of the revenue arithmetic, the result
of `executeQuery5` — including whether it aborts on a malformed numeric
field — is the same for every worker count `N ≥ 1` as for a single worker:
partitioning the line-item scan and merging the private per-worker maps by
summation is equivalent to the sequential scan. -/
theorem claim_C2 (r_name start_date end_date : String) (num_threads : Nat)
    (inp : QueryInput) (hnt : 1 ≤ num_threads) :
    executeQuery5 r_name start_date end_date num_threads inp =
      executeQuery5 r_name start_date end_date 1 inp := by
  cases hE : executeQuery5 r_name start_date end_date num_threads inp with
  | error e =>
    cases e
    have hex := (executeQuery5_error_iff r_name start_date end_date hnt inp).mp hE
    exact ((executeQuery5_error_iff r_name start_date end_date
      (le_refl 1) inp).mpr hex).symm
  | ok res =>
    cases hE1 : executeQuery5 r_name start_date end_date 1 inp with
    | error e =>
      cases e
      have hex := (executeQuery5_error_iff r_name start_date end_date
        (le_refl 1) inp).mp hE1
      have := (executeQuery5_error_iff r_name start_date end_date
        hnt inp).mpr hex
      rw [hE] at this
      exact Except.noConfusion this
    | ok res1 =>
      obtain ⟨hs, hc⟩ :=
        executeQuery5_ok_char r_name start_date end_date hnt inp hE
      obtain ⟨hs1, hc1⟩ :=
        executeQuery5_ok_char r_name start_date end_date (le_refl 1) inp hE1
      have : res = res1 := by
        refine sortedA_ext hs hs1 fun k => ?_
        obtain ⟨hsum, hiff⟩ := hc k
        obtain ⟨hsum1, hiff1⟩ := hc1 k
        exact afind_eq_of_char (hsum.trans hsum1.symm) (hiff.trans hiff1.symm)
      rw [this]

theorem claim_C2_witness :
    executeQuery5 "ASIA" "1994-01-01" "1995-01-01" 8 sampleInput =
      executeQuery5 "ASIA" "1994-01-01" "1995-01-01" 1 sampleInput :=
  claim_C2 "ASIA" "1994-01-01" "1995-01-01" 8 sampleInput (by decide)

/-- C4: an order key occurs in the `valid_orders` mapping exactly when some
order row carries that key, its date is lexicographically ≥ `start_date`
and strictly < `end_date` (exclusive upper bound), and its customer key is
present in the valid-customer mapping. -/
theorem claim_C4 (orders_data : List Order) (start_date end_date : String)
    (valid_customers : AList String) (k : String) :
    (afind (validOrders orders_data start_date end_date valid_customers)
        k).isSome = true ↔
      ∃ o ∈ orders_data, o.o_orderkey = k ∧
        start_date.data ≤ o.o_orderdate.data ∧
        o.o_orderdate.data < end_date.data ∧
        (afind valid_customers o.o_custkey).isSome = true :=
  validOrders_isSome_iff orders_data start_date end_date valid_customers k

/-- C7: the sequence produced by the Result Ranker from a merged result
mapping is a permutation of the mapping's pairs (it contains exactly those
pairs) and is sorted non-increasingly in revenue; ties may come out in any
order, and this model realises one such order. -/
theorem claim_C7 (results : AList ℚ) :
    (sortedResults results).Perm results ∧
      (sortedResults results).Sorted (fun a b => b.2 ≤ a.2) :=
  ⟨List.perm_insertionSort revGE results,
   List.sorted_insertionSort revGE results⟩

/-- C8: the two unguarded map reads in the worker body can never miss:
every customer key stored as a value of `valid_orders` is a key of
`valid_customers`, and every nation key stored as a value of
`valid_suppliers` is a key of `nation_key_to_name`, so the `none` branch
of these two lookups is unreachable. -/
theorem claim_C8 (r_name start_date end_date : String) (inp : QueryInput) :
    (∀ k ck, afind (voOf r_name start_date end_date inp) k = some ck →
      (afind (vcOf r_name inp) ck).isSome = true) ∧
    (∀ k nk, afind (vsOf r_name inp) k = some nk →
      (afind (nk2nOf r_name inp) nk).isSome = true) :=
  ⟨fun _ _ h => vo_values_in_vc r_name start_date end_date inp h,
   fun _ _ h => vs_values_in_nk2n r_name inp h⟩

theorem claim_C8_witness :
    (afind (vcOf "ASIA" sampleInput) "c1").isSome = true ∧
    (afind (nk2nOf "ASIA" sampleInput) "10").isSome = true :=
  ⟨(claim_C8 "ASIA" "1994-01-01" "1995-01-01" sampleInput).1 "o1" "c1"
      (by with_unfolding_all rfl),
   (claim_C8 "ASIA" "1994-01-01" "1995-01-01" sampleInput).2 "s1" "10"
      (by with_unfolding_all rfl)⟩

theorem chunkRange_fst (M nt i : Nat) :
    (chunkRange M nt i).1 = i * (M / nt) := rfl

theorem chunkRange_snd (M nt i : Nat) :
    (chunkRange M nt i).2 =
      if i = nt - 1 then M else (i + 1) * (M / nt) := rfl

theorem chunkRange_snd_le {M nt i : Nat} (hi : i < nt) :
    (chunkRange M nt i).2 ≤ M := by
  rw [chunkRange_snd]
  by_cases h : i = nt - 1
  · rw [if_pos h]
  · rw [if_neg h]
    calc (i + 1) * (M / nt) ≤ nt * (M / nt) :=
          Nat.mul_le_mul_right _ hi
      _ ≤ M := by
          rw [Nat.mul_comm]
          exact Nat.div_mul_le_self M nt

theorem chunkRange_ordered {M nt i j : Nat} (hij : i < j) (hj : j < nt) :
    (chunkRange M nt i).2 ≤ (chunkRange M nt j).1 := by
  rw [chunkRange_snd, chunkRange_fst]
  have hi : i ≠ nt - 1 := by omega
  rw [if_neg hi]
  exact Nat.mul_le_mul_right _ hij

/-- C3: for every worker count `N ≥ 1` and collection size `M`, the `N`
index ranges handed to the workers are pairwise disjoint, contiguous (each
range ends where the next begins, and the last absorbs the remainder up to
`M`), and together cover exactly `[0, M)`; a worker's slice of the
collection has exactly the length of its range, so an empty range means no
rows are processed (and, the model being total, no fault). -/
theorem claim_C3 (M nt : Nat) (hnt : 1 ≤ nt) :
    (∀ i j, i < nt → j < nt → i ≠ j → ∀ x,
      ¬((chunkRange M nt i).1 ≤ x ∧ x < (chunkRange M nt i).2 ∧
        (chunkRange M nt j).1 ≤ x ∧ x < (chunkRange M nt j).2)) ∧
    (∀ x, x < M ↔ ∃ i, i < nt ∧ (chunkRange M nt i).1 ≤ x ∧
      x < (chunkRange M nt i).2) ∧
    (∀ i, i + 1 < nt → (chunkRange M nt i).2 = (chunkRange M nt (i + 1)).1) ∧
    (chunkRange M nt (nt - 1)).2 = M ∧
    (∀ l : List LineItem, l.length = M → ∀ i, i < nt →
      (chunkSeg l nt i).length =
        (chunkRange M nt i).2 - (chunkRange M nt i).1) := by
  refine ⟨?_, ?_, ?_, ?_, ?_⟩
  · rintro i j hi hj hne x ⟨h1, h2, h3, h4⟩
    rcases lt_or_gt_of_ne hne with hij | hij
    · have := chunkRange_ordered (M := M) hij hj
      omega
    · have := chunkRange_ordered (M := M) hij hi
      omega
  · intro x
    constructor
    · intro hx
      by_cases hc : M / nt = 0
      · refine ⟨nt - 1, by omega, ?_, ?_⟩
        · rw [chunkRange_fst, hc, Nat.mul_zero]
          exact Nat.zero_le x
        · rw [chunkRange_snd, if_pos rfl]
          exact hx
      · by_cases hq : x / (M / nt) < nt - 1
        · refine ⟨x / (M / nt), ?_, ?_, ?_⟩
          · exact lt_of_lt_of_le hq (Nat.sub_le nt 1)
          · rw [chunkRange_fst]
            exact Nat.div_mul_le_self x (M / nt)
          · rw [chunkRange_snd, if_neg (Nat.ne_of_lt hq)]
            have hpos : 0 < M / nt := Nat.pos_of_ne_zero hc
            have hmod := Nat.div_add_mod x (M / nt)
            have hlt := Nat.mod_lt x hpos
            calc x = (M / nt) * (x / (M / nt)) + x % (M / nt) := hmod.symm
              _ < (M / nt) * (x / (M / nt)) + (M / nt) :=
                  Nat.add_lt_add_left hlt _
              _ = (x / (M / nt) + 1) * (M / nt) := by
                  rw [Nat.succ_mul, Nat.mul_comm]
        · refine ⟨nt - 1, by omega, ?_, ?_⟩
          · rw [chunkRange_fst]
            have h1 : nt - 1 ≤ x / (M / nt) := Nat.le_of_not_lt hq
            calc (nt - 1) * (M / nt) ≤ (x / (M / nt)) * (M / nt) :=
                  Nat.mul_le_mul_right _ h1
              _ ≤ x := Nat.div_mul_le_self x (M / nt)
          · rw [chunkRange_snd, if_pos rfl]
            exact hx
    · rintro ⟨i, hi, _, he⟩
      exact lt_of_lt_of_le he (chunkRange_snd_le hi)
  · intro i h
    rw [chunkRange_snd, chunkRange_fst, if_neg (by omega)]
  · rw [chunkRange_snd, if_pos rfl]
  · intro l hl i hi
    subst hl
    show ((l.drop (chunkRange l.length nt i).1).take
        ((chunkRange l.length nt i).2 - (chunkRange l.length nt i).1)).length =
      (chunkRange l.length nt i).2 - (chunkRange l.length nt i).1
    rw [List.length_take, List.length_drop]
    exact Nat.min_eq_left (Nat.sub_le_sub_right (chunkRange_snd_le hi) _)

theorem claim_C3_witness :
    (∀ i j, i < 3 → j < 3 → i ≠ j → ∀ x,
      ¬((chunkRange 5 3 i).1 ≤ x ∧ x < (chunkRange 5 3 i).2 ∧
        (chunkRange 5 3 j).1 ≤ x ∧ x < (chunkRange 5 3 j).2)) ∧
    (∀ x, x < 5 ↔ ∃ i, i < 3 ∧ (chunkRange 5 3 i).1 ≤ x ∧
      x < (chunkRange 5 3 i).2) ∧
    (∀ i, i + 1 < 3 → (chunkRange 5 3 i).2 = (chunkRange 5 3 (i + 1)).1) ∧
    (chunkRange 5 3 (3 - 1)).2 = 5 ∧
    (∀ l : List LineItem, l.length = 5 → ∀ i, i < 3 →
      (chunkSeg l 3 i).length =
        (chunkRange 5 3 i).2 - (chunkRange 5 3 i).1) :=
  claim_C3 5 3 (by decide)

/-- C5, counterexample to the claim as stated: `skipInput` contains a line
item whose discount field `"abc"` is not parseable, yet the run succeeds
and produces a (here empty) result, because the row's order key matches no
valid order and the join filters skip the row before any numeric field is
parsed — contradicting "signals a fatal input-format error ... regardless
of whether that row would otherwise match or fail the join filters". -/
theorem claim_C5_counterexample :
    (∃ li ∈ skipInput.lineitem_data, parseNum li.l_discount = none) ∧
    executeQuery5 "ASIA" "1994-01-01" "1995-01-01" 1 skipInput =
      .ok [] :=
  ⟨by decide, by with_unfolding_all rfl⟩

/-- C5 as amended: a run aborts with the fatal input-format error exactly
when some line item that passes the three join filters has an unparseable
`extended_price` or `discount`; such a run emits no result (the `ok`
payload does not exist), while corrupt rows that fail the join filters are
skipped without being parsed. -/
theorem claim_C5_amended (r_name start_date end_date : String)
    (num_threads : Nat) (inp : QueryInput) (hnt : 1 ≤ num_threads) :
    executeQuery5 r_name start_date end_date num_threads inp = .error () ↔
      ∃ li ∈ inp.lineitem_data,
        passesFilters (voOf r_name start_date end_date inp) (vsOf r_name inp)
          (vcOf r_name inp) li = true ∧
        (parseNum li.l_extendedprice = none ∨
          parseNum li.l_discount = none) := by
  rw [executeQuery5_error_iff r_name start_date end_date hnt inp]
  constructor
  · rintro ⟨li, hli, hb⟩
    rw [Bool.and_eq_true] at hb
    refine ⟨li, hli, hb.1, ?_⟩
    have hpf := hb.2
    unfold parseFails at hpf
    rw [Bool.or_eq_true] at hpf
    rcases hpf with h | h
    · exact Or.inl (Option.isNone_iff_eq_none.mp h)
    · exact Or.inr (Option.isNone_iff_eq_none.mp h)
  · rintro ⟨li, hli, hp, hbad⟩
    refine ⟨li, hli, ?_⟩
    rw [Bool.and_eq_true]
    refine ⟨hp, ?_⟩
    unfold parseFails
    rw [Bool.or_eq_true]
    rcases hbad with h | h
    · exact Or.inl (Option.isNone_iff_eq_none.mpr h)
    · exact Or.inr (Option.isNone_iff_eq_none.mpr h)

theorem claim_C5_witness :
    executeQuery5 "ASIA" "1994-01-01" "1995-01-01" 2 badInput =
        .error () ↔
      ∃ li ∈ badInput.lineitem_data,
        passesFilters (voOf "ASIA" "1994-01-01" "1995-01-01" badInput)
          (vsOf "ASIA" badInput) (vcOf "ASIA" badInput) li = true ∧
        (parseNum li.l_extendedprice = none ∨
          parseNum li.l_discount = none) :=
  claim_C5_amended "ASIA" "1994-01-01" "1995-01-01" 2 badInput (by decide)

theorem buildFrom_of_false {α β : Type} (P : β → Bool) (key : β → String)
    (val : β → α) (m : AList α) (rows : List β)
    (h : ∀ x ∈ rows, P x = false) : buildFrom P key val m rows = m := by
  induction rows generalizing m with
  | nil => rfl
  | cons x rows ih =>
    rw [buildFrom_cons]
    have hstep : buildStep P key val m x = m := by
      simp [buildStep, h x (List.mem_cons_self _ _)]
    rw [hstep]
    exact ih m fun y hy => h y (List.mem_cons_of_mem _ hy)

theorem foldl_stepT_vo_nil (vs vc nk2n : AList String)
    (items : List LineItem) (acc : AList ℚ) :
    items.foldl (stepT [] vs vc nk2n) acc = acc := by
  induction items generalizing acc with
  | nil => rfl
  | cons it items ih =>
    rw [List.foldl_cons, stepT_of_none acc
      (lineContrib_none_of_vo (show afind [] it.l_orderkey = none from rfl))]
    exact ih acc

/-- C6: when no region's name equals the target region name (exact,
case-sensitive comparison), `executeQuery5` still succeeds — all derived
mappings and the merged result are empty, and the ranked output sequence is
empty as well. -/
theorem claim_C6 (r_name start_date end_date : String) (num_threads : Nat)
    (inp : QueryInput) (_hnt : 1 ≤ num_threads)
    (hreg : ∀ rg ∈ inp.region_data, rg.r_name ≠ r_name) :
    executeQuery5 r_name start_date end_date num_threads inp = .ok [] ∧
    sortedResults [] = [] := by
  refine ⟨?_, rfl⟩
  have hvrk : validRegionKeys inp.region_data r_name = [] := by
    rw [List.eq_nil_iff_forall_not_mem]
    intro k hk
    rcases (mem_validRegionKeys _ _ _).mp hk with ⟨rg, hrg, hname, _⟩
    exact hreg rg hrg hname
  have hnk : nk2nOf r_name inp = [] := by
    rw [nk2nOf, hvrk, nationKeyToName_eq]
    exact buildFrom_of_false _ _ _ _ _ fun n _ => by simp
  have hvc : vcOf r_name inp = [] := by
    rw [vcOf, hnk, validCustomers_eq]
    exact buildFrom_of_false _ _ _ _ _ fun c _ => by simp [afind]
  have hvs : vsOf r_name inp = [] := by
    rw [vsOf, hnk, validSuppliers_eq]
    exact buildFrom_of_false _ _ _ _ _ fun s _ => by simp [afind]
  have hvo : voOf r_name start_date end_date inp = [] := by
    rw [voOf, hvc, validOrders_eq]
    exact buildFrom_of_false _ _ _ _ _ fun o _ => by simp [afind]
  rw [executeQuery5_def, hvo, hvs, hvc, hnk, mapM_runWorker]
  have hfalse : ((List.range num_threads).any fun i =>
      (chunkSeg inp.lineitem_data num_threads i).any fun it =>
        passesFilters [] [] [] it && parseFails it) = false := by
    rw [List.any_eq_false]
    intro i _
    intro hcon
    rcases List.any_eq_true.mp hcon with ⟨it, _, hb⟩
    rw [Bool.and_eq_true] at hb
    exact Bool.noConfusion hb.1
  rw [if_neg (fun h => Bool.noConfusion (hfalse ▸ h))]
  show Except.ok (((List.range num_threads).map fun i =>
      (chunkSeg inp.lineitem_data num_threads i).foldl
        (stepT [] [] [] []) []).foldl mergeInto []) = Except.ok []
  have hmap : (List.range num_threads).map (fun i =>
      (chunkSeg inp.lineitem_data num_threads i).foldl
        (stepT [] [] [] []) []) =
      (List.range num_threads).map (fun _ => ([] : AList ℚ)) :=
    List.map_congr_left fun i _ => foldl_stepT_vo_nil [] [] [] _ []
  have hfold : ∀ idx : List Nat,
      (idx.map fun _ => ([] : AList ℚ)).foldl mergeInto [] = [] := by
    intro idx
    induction idx with
    | nil => rfl
    | cons i idx ih =>
      rw [List.map_cons, List.foldl_cons]
      exact ih
  rw [hmap, hfold]

theorem claim_C6_witness :
    executeQuery5 "NOWHERE" "1994-01-01" "1995-01-01" 2 sampleInput =
      .ok [] ∧ sortedResults [] = [] :=
  claim_C6 "NOWHERE" "1994-01-01" "1995-01-01" 2 sampleInput
    (by decide) (by decide)

/-- C9: executing one query leaves all six input collections unchanged —
`executeQuery5` writes only through the `results` reference (the source
takes the collections by `const` reference) — and the Result Ranker sorts
a copy, returning the program state, including the merged mapping,
untouched. -/
theorem claim_C9 (r_name start_date end_date : String) (num_threads : Nat)
    (st st' : ProgState)
    (h : executeQuery5St r_name start_date end_date num_threads st =
      .ok st') :
    st'.customer_data = st.customer_data ∧
    st'.orders_data = st.orders_data ∧
    st'.lineitem_data = st.lineitem_data ∧
    st'.supplier_data = st.supplier_data ∧
    st'.nation_data = st.nation_data ∧
    st'.region_data = st.region_data ∧
    (outputResultsSt st').2 = st' := by
  unfold executeQuery5St at h
  cases hE : executeQuery5 r_name start_date end_date num_threads st.input with
  | error e =>
    rw [hE] at h
    exact Except.noConfusion h
  | ok res =>
    rw [hE] at h
    have h' : Except.ok (ε := Unit) { st with results := res } =
        Except.ok st' := h
    injection h' with h'
    subst h'
    exact ⟨rfl, rfl, rfl, rfl, rfl, rfl, rfl⟩

theorem claim_C9_witness :
    ({ sampleState with results := [("JAPAN", (110 : ℚ))] }).customer_data =
        sampleState.customer_data ∧
    ({ sampleState with results := [("JAPAN", (110 : ℚ))] }).orders_data =
        sampleState.orders_data ∧
    ({ sampleState with results := [("JAPAN", (110 : ℚ))] }).lineitem_data =
        sampleState.lineitem_data ∧
    ({ sampleState with results := [("JAPAN", (110 : ℚ))] }).supplier_data =
        sampleState.supplier_data ∧
    ({ sampleState with results := [("JAPAN", (110 : ℚ))] }).nation_data =
        sampleState.nation_data ∧
    ({ sampleState with results := [("JAPAN", (110 : ℚ))] }).region_data =
        sampleState.region_data ∧
    (outputResultsSt
        { sampleState with results := [("JAPAN", (110 : ℚ))] }).2 =
      { sampleState with results := [("JAPAN", (110 : ℚ))] } :=
  claim_C9 "ASIA" "1994-01-01" "1995-01-01" 1 sampleState
    { sampleState with results := [("JAPAN", (110 : ℚ))] }
    (by with_unfolding_all rfl)

/-- C10: whenever the scanning loop of `parseArgs` completes and leaves the
target region name, start date, end date, table path, or result path empty,
or a non-positive worker count, validation fails (`parseArgs` returns
`false`), and consequently the engine never runs: zero line-item rows are
processed for that invocation. -/
theorem claim_C10 (args : List String) (init : ArgConfig) (c : ArgConfig)
    (hloop : parseArgsLoop args init = some c)
    (hbad : c.r_name = "" ∨ c.start_date = "" ∨ c.end_date = "" ∨
      c.table_path = "" ∨ c.result_path = "" ∨ c.num_threads ≤ 0) :
    parseArgs args init = some (false, c) ∧
    ∀ inp : QueryInput, mainRowsProcessed args init inp = 0 := by
  have hok : argsOk c = false := by
    unfold argsOk
    rcases hbad with h | h | h | h | h | h <;> simp [h]
  have hpa : parseArgs args init = some (false, c) := by
    unfold parseArgs
    rw [hloop]
    simp [hok]
  refine ⟨hpa, fun inp => ?_⟩
  unfold mainRowsProcessed
  rw [hpa]

theorem claim_C10_witness :
    parseArgs ["--r_name", "ASIA", "--threads", "0", "--start_date",
        "1994-01-01", "--end_date", "1995-01-01", "--table_path", "tbl",
        "--result_path", "out"] ⟨"", "", "", 0, "", ""⟩ =
      some (false, ⟨"ASIA", "1994-01-01", "1995-01-01", 0, "tbl", "out"⟩) :=
  (claim_C10 ["--r_name", "ASIA", "--threads", "0", "--start_date",
      "1994-01-01", "--end_date", "1995-01-01", "--table_path", "tbl",
      "--result_path", "out"] ⟨"", "", "", 0, "", ""⟩
    ⟨"ASIA", "1994-01-01", "1995-01-01", 0, "tbl", "out"⟩
    (by decide) (by decide)).1

end TPCH
